import Mathlib

/-!
Verification development for the coggy cognitive-architecture core.

The embedding covers, from the Rust sources:
* `src/atom.rs` — `TruthValue`, `AttentionValue`, `AtomType`, `Atom`;
* `src/atomspace.rs` — the `AtomSpace` store with its four indices and
  the public operations `add_node`, `add_link`, `find_node`, `find_link`,
  `get_by_type`, `get_incoming`, `all_ids`, `all_atoms_sorted`,
  `atoms_by_sti`, `types_present`;
* `src/ecan.rs` — `spread_attention` with its boost / spread / decay phases;
* `src/pln.rs` — `deduction_tv`, `deduction_step`, `forward_chain`;
* `src/tikkun.rs` — `run_tikkun`.

Modelling conventions: `f64` is modelled as `ℚ`; each Rust `HashMap` is
modelled as an association list keyed by the map key, with first-match
lookup and first-match in-place update (a `HashMap` never holds a key
twice, so first-match semantics coincide with map semantics on all stores
the code can build).  `HashMap::values()` iteration order is unspecified
in Rust; where an algorithm's output depends on it (`atoms_by_sti`) the
iteration order is an explicit parameter of the embedding.
-/

namespace Coggy

/-- First-match association lookup, modelling `HashMap::get`. -/
def lookup? {α β : Type} [DecidableEq α] (l : List (α × β)) (k : α) : Option β :=
  match l with
  | [] => none
  | p :: rest => if p.1 = k then some p.2 else lookup? rest k

/-- In-place modification of the value stored at a key, modelling
`HashMap::get_mut` followed by a field assignment.  Only the first
occurrence of the key is touched; a missing key is a no-op. -/
def updateAssoc {α β : Type} [DecidableEq α] (l : List (α × β)) (k : α) (f : β → β) :
    List (α × β) :=
  match l with
  | [] => []
  | p :: rest => if p.1 = k then (p.1, f p.2) :: rest else p :: updateAssoc rest k f

/-- `map.entry(k).or_default().push(x)` on a map from keys to lists. -/
def pushEntry {α β : Type} [DecidableEq α] (l : List (α × List β)) (k : α) (x : β) :
    List (α × List β) :=
  match l with
  | [] => [(k, [x])]
  | p :: rest => if p.1 = k then (p.1, p.2 ++ [x]) :: rest else p :: pushEntry rest k x

/-- Insert into a list sorted by `le`, keeping existing order among
elements that compare equal (stability of Rust's `sort_by`). -/
def insertSorted {α : Type} (le : α → α → Bool) (x : α) : List α → List α
  | [] => [x]
  | y :: ys => if le x y then x :: y :: ys else y :: insertSorted le x ys

/-- Stable insertion sort, modelling Rust's stable `slice::sort_by`. -/
def insertionSort {α : Type} (le : α → α → Bool) : List α → List α
  | [] => []
  | x :: xs => insertSorted le x (insertionSort le xs)

/-- `TruthValue` from `src/atom.rs`: strength and confidence. -/
structure TruthValue where
  strength : ℚ
  confidence : ℚ
  deriving DecidableEq, Repr

/-- `TruthValue::new`: both components clamped into `[0,1]`
(`f64::clamp(0.0, 1.0)`). -/
def TruthValue.new (strength confidence : ℚ) : TruthValue :=
  ⟨max 0 (min 1 strength), max 0 (min 1 confidence)⟩

/-- `TruthValue::default_tv`. -/
def TruthValue.default_tv : TruthValue := TruthValue.new 1 0

/-- `TruthValue::is_valid`: both components lie in `[0,1]`. -/
def TruthValue.is_valid (tv : TruthValue) : Bool :=
  decide (0 ≤ tv.strength ∧ tv.strength ≤ 1 ∧ 0 ≤ tv.confidence ∧ tv.confidence ≤ 1)

/-- `AttentionValue` from `src/atom.rs`. -/
structure AttentionValue where
  sti : ℚ
  lti : ℚ
  deriving DecidableEq, Repr

/-- `AttentionValue::zero`. -/
def AttentionValue.zero : AttentionValue := ⟨0, 0⟩

/-- `AtomType` from `src/atom.rs`. -/
inductive AtomType where
  | ConceptNode
  | PredicateNode
  | InheritanceLink
  | EvaluationLink
  | ListLink
  deriving DecidableEq, Repr

/-- `AtomType::is_node`. -/
def AtomType.is_node : AtomType → Bool
  | .ConceptNode => true
  | .PredicateNode => true
  | _ => false

/-- `AtomType::is_link` (`!is_node`). -/
def AtomType.is_link (t : AtomType) : Bool := !t.is_node

abbrev AtomId := ℕ

/-- `Atom` from `src/atom.rs`. -/
structure Atom where
  id : AtomId
  atom_type : AtomType
  name : Option String
  outgoing : List AtomId
  tv : TruthValue
  av : AttentionValue
  deriving DecidableEq, Repr

/-- `Atom::new_node`. -/
def Atom.new_node (id : AtomId) (t : AtomType) (name : String) (tv : TruthValue) : Atom :=
  ⟨id, t, some name, [], tv, AttentionValue.zero⟩

/-- `Atom::new_link`. -/
def Atom.new_link (id : AtomId) (t : AtomType) (outgoing : List AtomId) (tv : TruthValue) :
    Atom :=
  ⟨id, t, none, outgoing, tv, AttentionValue.zero⟩

/-- The `AtomSpace` store from `src/atomspace.rs`: the atom table plus the
four derived indices, each `HashMap` modelled as an association list. -/
structure AtomSpace where
  atoms : List (AtomId × Atom)
  nextId : AtomId
  nodeIndex : List ((AtomType × String) × AtomId)
  linkIndex : List ((AtomType × List AtomId) × AtomId)
  typeIndex : List (AtomType × List AtomId)
  incoming : List (AtomId × List AtomId)
  turn : ℕ
  deriving DecidableEq, Repr

/-- `AtomSpace::new`. -/
def AtomSpace.empty : AtomSpace := ⟨[], 1, [], [], [], [], 0⟩

/-- `AtomSpace::size`. -/
def AtomSpace.size (s : AtomSpace) : ℕ := s.atoms.length

/-- `AtomSpace::get`. -/
def AtomSpace.get (s : AtomSpace) (id : AtomId) : Option Atom := lookup? s.atoms id

/-- The in-place merge both insertion operations perform on an existing
atom: keep the higher-confidence truth value
(`if tv.confidence > atom.tv.confidence { atom.tv = tv }`). -/
def mergeTv (tv : TruthValue) (a : Atom) : Atom :=
  if tv.confidence > a.tv.confidence then { a with tv := tv } else a

/-- `AtomSpace::add_node`: dedup on `(type, name)`, confidence-max truth
merge on re-insertion, fresh id and index updates on creation.
Returns the updated store together with `(id, is_new)`. -/
def add_node (s : AtomSpace) (atom_type : AtomType) (name : String) (tv : TruthValue) :
    AtomSpace × AtomId × Bool :=
  match lookup? s.nodeIndex (atom_type, name) with
  | some id =>
    ({ s with atoms := updateAssoc s.atoms id (mergeTv tv) }, id, false)
  | none =>
    let id := s.nextId
    let atom := Atom.new_node id atom_type name tv
    ({ s with
        atoms := s.atoms ++ [(id, atom)]
        nextId := s.nextId + 1
        nodeIndex := s.nodeIndex ++ [((atom_type, name), id)]
        typeIndex := pushEntry s.typeIndex atom_type id },
      id, true)

/-- `AtomSpace::add_link`: dedup on `(type, outgoing)`, confidence-max
truth merge on re-insertion; on creation also appends the new id to the
incoming index of every outgoing target, once per position. -/
def add_link (s : AtomSpace) (atom_type : AtomType) (outgoing : List AtomId)
    (tv : TruthValue) : AtomSpace × AtomId × Bool :=
  match lookup? s.linkIndex (atom_type, outgoing) with
  | some id =>
    ({ s with atoms := updateAssoc s.atoms id (mergeTv tv) }, id, false)
  | none =>
    let id := s.nextId
    let atom := Atom.new_link id atom_type outgoing tv
    ({ s with
        atoms := s.atoms ++ [(id, atom)]
        nextId := s.nextId + 1
        linkIndex := s.linkIndex ++ [((atom_type, outgoing), id)]
        typeIndex := pushEntry s.typeIndex atom_type id
        incoming := outgoing.foldl (fun m target => pushEntry m target id) s.incoming },
      id, true)

/-- `AtomSpace::find_node`. -/
def find_node (s : AtomSpace) (atom_type : AtomType) (name : String) : Option AtomId :=
  lookup? s.nodeIndex (atom_type, name)

/-- `AtomSpace::find_link`. -/
def find_link (s : AtomSpace) (atom_type : AtomType) (outgoing : List AtomId) :
    Option AtomId :=
  lookup? s.linkIndex (atom_type, outgoing)

/-- `AtomSpace::get_by_type`. -/
def get_by_type (s : AtomSpace) (atom_type : AtomType) : List AtomId :=
  (lookup? s.typeIndex atom_type).getD []

/-- `AtomSpace::get_incoming`. -/
def get_incoming (s : AtomSpace) (id : AtomId) : List AtomId :=
  (lookup? s.incoming id).getD []

/-- `AtomSpace::all_ids`: all keys of the atom table, sorted ascending. -/
def all_ids (s : AtomSpace) : List AtomId :=
  insertionSort (fun a b => decide (a ≤ b)) (s.atoms.map Prod.fst)

/-- `AtomSpace::all_atoms_sorted`: all atoms sorted by id. -/
def all_atoms_sorted (s : AtomSpace) : List Atom :=
  insertionSort (fun a b => decide (a.id ≤ b.id)) (s.atoms.map Prod.snd)

/-- `AtomSpace::atoms_by_sti`, with the unspecified `HashMap::values()`
iteration order made an explicit parameter `order` (any enumeration of the
stored atoms): filter `sti > 0.01`, stable-sort descending by sti,
truncate to `limit`. -/
def atoms_by_sti (order : List Atom) (limit : ℕ) : List Atom :=
  ((insertionSort (fun a b => decide (b.av.sti ≤ a.av.sti))
      (order.filter (fun a => decide ((0.01 : ℚ) < a.av.sti)))).take limit)

/-- `AtomSpace::types_present`: per-type member counts, positive counts
only, sorted descending by count (`type_index` iteration order is the
index association-list order). -/
def types_present (s : AtomSpace) : List (AtomType × ℕ) :=
  insertionSort (fun a b => decide (b.2 ≤ a.2))
    ((s.typeIndex.map (fun p => (p.1, p.2.length))).filter (fun p => decide (0 < p.2)))

/-! ### ECAN attention allocator (`src/ecan.rs`) -/

/-- `EcanConfig`. -/
structure EcanConfig where
  spread_fraction : ℚ
  decay_factor : ℚ
  initial_sti : ℚ
  rent : ℚ
  deriving DecidableEq, Repr

/-- `EcanConfig::default`. -/
def EcanConfig.default : EcanConfig := ⟨0.3, 0.7, 40, 0.5⟩

/-- `StiChange`. -/
structure StiChange where
  id : AtomId
  old : ℚ
  new_val : ℚ
  deriving DecidableEq, Repr

/-- `StiChange::boosted`. -/
def StiChange.boosted (c : StiChange) : Bool := decide (c.old + 0.1 < c.new_val)

/-- `StiChange::decayed`. -/
def StiChange.decayed (c : StiChange) : Bool := decide (c.new_val < c.old - 0.1)

/-- The sti an atom currently holds, `space.get(id).map(|a| a.av.sti).unwrap_or(0.0)`. -/
def stiOf (s : AtomSpace) (id : AtomId) : ℚ :=
  match s.get id with
  | some a => a.av.sti
  | none => 0

/-- The boost added in phase 1 of `spread_attention`, by atom type. -/
def boostAmount (cfg : EcanConfig) (t : AtomType) : ℚ :=
  match t with
  | .ListLink => cfg.initial_sti
  | .EvaluationLink => cfg.initial_sti * 0.85
  | .InheritanceLink => cfg.initial_sti * 0.85
  | .ConceptNode => cfg.initial_sti * 0.95
  | .PredicateNode => cfg.initial_sti * 0.5

/-- Add `q` to an atom's sti, leaving every other field alone. -/
def addSti (q : ℚ) (a : Atom) : Atom :=
  { a with av := { a.av with sti := a.av.sti + q } }

/-- Phase 1 of `spread_attention`: each id in `activated` (once per
occurrence) gets `initial_sti * weight(type)` added to its sti. -/
def boostAtoms (cfg : EcanConfig) (activated : List AtomId)
    (atoms : List (AtomId × Atom)) : List (AtomId × Atom) :=
  activated.foldl
    (fun l id => updateAssoc l id (fun a => addSti (boostAmount cfg a.atom_type) a)) atoms

/-- The phase-2 contributions pushed for one source atom: a link with
`sti ≥ 1.0` and nonempty outgoing distributes `sti * spread_fraction`
evenly over its targets; every atom with `sti ≥ 1.0` distributes
`sti * spread_fraction * 0.3` evenly over its incoming links. -/
def spreadContrib (s : AtomSpace) (cfg : EcanConfig) (id : AtomId) : List (AtomId × ℚ) :=
  match s.get id with
  | none => []
  | some a =>
    if a.av.sti < 1 then []
    else
      (if a.atom_type.is_link && !a.outgoing.isEmpty then
        a.outgoing.map
          (fun tgt => (tgt, a.av.sti * cfg.spread_fraction / (a.outgoing.length : ℚ)))
      else []) ++
      (let inc := get_incoming s id
       if !inc.isEmpty then
        inc.map
          (fun lk => (lk, a.av.sti * cfg.spread_fraction * 0.3 / (inc.length : ℚ)))
       else [])

/-- Phase 2 collection pass: all contributions, in `all_ids` order, read
from the state at phase-2 entry only. -/
def collectSpreads (s : AtomSpace) (cfg : EcanConfig) (ids : List AtomId) :
    List (AtomId × ℚ) :=
  ids.flatMap (spreadContrib s cfg)

/-- Phase 2 application pass: add each collected amount to its target. -/
def applySpreads (spreads : List (AtomId × ℚ)) (atoms : List (AtomId × Atom)) :
    List (AtomId × Atom) :=
  spreads.foldl (fun l p => updateAssoc l p.1 (addSti p.2)) atoms

/-- Phase 3 on one atom: if `sti > 0` then `sti ← max(0, sti*decay − rent)`. -/
def decayAtom (cfg : EcanConfig) (a : Atom) : Atom :=
  if a.av.sti > 0 then
    { a with av := { a.av with sti := max 0 (a.av.sti * cfg.decay_factor - cfg.rent) } }
  else a

/-- Phase 3 of `spread_attention`: decay every snapshot id not in `activated`. -/
def decayAtoms (cfg : EcanConfig) (activated : List AtomId) (ids : List AtomId)
    (atoms : List (AtomId × Atom)) : List (AtomId × Atom) :=
  ids.foldl (fun l id => if id ∈ activated then l else updateAssoc l id (decayAtom cfg)) atoms

/-- The store state after phase 1 (boost) of `spread_attention`. -/
def afterBoost (s : AtomSpace) (activated : List AtomId) (cfg : EcanConfig) : AtomSpace :=
  { s with atoms := boostAtoms cfg activated s.atoms }

/-- The store state after phase 2 (spread) of `spread_attention`; the
contribution list is collected against the post-boost state and only then
applied. -/
def afterSpread (s : AtomSpace) (activated : List AtomId) (cfg : EcanConfig) : AtomSpace :=
  let s1 := afterBoost s activated cfg
  { s1 with atoms := applySpreads (collectSpreads s1 cfg (all_ids s)) s1.atoms }

/-- `spread_attention` from `src/ecan.rs`: snapshot, boost, spread, decay,
then one change record per snapshot id whose sti moved by more than 0.01,
plus records for activated ids absent from the snapshot that end above
0.01. -/
def spread_attention (s : AtomSpace) (activated : List AtomId) (cfg : EcanConfig) :
    AtomSpace × List StiChange :=
  let ids := all_ids s
  let s2 := afterSpread s activated cfg
  let s3 := { s2 with atoms := decayAtoms cfg activated ids s2.atoms }
  let changes := ids.filterMap (fun id =>
    if decide ((0.01 : ℚ) < |stiOf s3 id - stiOf s id|) then
      some ⟨id, stiOf s id, stiOf s3 id⟩
    else none)
  let newOnes := activated.filterMap (fun id =>
    if (s.get id).isSome then none
    else if decide ((0.01 : ℚ) < stiOf s3 id) then some ⟨id, 0, stiOf s3 id⟩
    else none)
  (s3, changes ++ newOnes)

/-! ### PLN forward chainer (`src/pln.rs`) -/

/-- `Inference`. -/
structure Inference where
  rule : String
  premises : List AtomId
  conclusion_id : AtomId
  tv : TruthValue
  deriving DecidableEq, Repr

/-- `deduction_tv`: `s_ac = s_ab*s_bc`, `c_ac = min(c_ab, c_bc) * 0.9`. -/
def deduction_tv (tv_ab tv_bc : TruthValue) : TruthValue :=
  TruthValue.new (tv_ab.strength * tv_bc.strength)
    (min tv_ab.confidence tv_bc.confidence * 0.9)

/-- One inheritance triple `(src, tgt, link_id, tv)` of `deduction_step`. -/
abbrev InhTriple := AtomId × AtomId × AtomId × TruthValue

/-- A selected candidate `(a, c, tv, ab_id, bc_id)` of `deduction_step`. -/
abbrev DedCand := AtomId × AtomId × TruthValue × AtomId × AtomId

/-- The `(src, tgt, link_id, tv)` triple one stored atom contributes to a
`deduction_step` snapshot, if its outgoing list has exactly two ids. -/
def tripleOf (s : AtomSpace) (id : AtomId) : Option InhTriple :=
  match s.get id with
  | none => none
  | some a =>
    match a.outgoing with
    | [x, y] => some (x, y, id, a.tv)
    | _ => none

/-- The snapshot of all current inheritance links with two outgoing ids,
as `(src, tgt, link_id, tv)` triples, in `get_by_type` order. -/
def inhTriples (s : AtomSpace) : List InhTriple :=
  (get_by_type s .InheritanceLink).filterMap (tripleOf s)

/-- The inheritance edge set of a store: the `(source, target)` pairs of
its binary inheritance links. -/
def inhEdges (s : AtomSpace) : List (AtomId × AtomId) :=
  (inhTriples s).map (fun t => (t.1, t.2.1))

/-- Inner step of the candidate scan: try to pair `pab = (a, b, …)` with
`pbc = (b2, c, …)`; skip unless `b = b2` and `a ≠ c`, skip if `(a→c)`
already exists in the store, skip if `(a, c)` was already selected in this
round, otherwise append the candidate. -/
def dedCandStep (s : AtomSpace) (pab : InhTriple) (cands : List DedCand)
    (pbc : InhTriple) : List DedCand :=
  match pab, pbc with
  | (a, b, ab_id, tv_ab), (b2, c, bc_id, tv_bc) =>
    if b ≠ b2 ∨ a = c then cands
    else if (find_link s .InheritanceLink [a, c]).isSome then cands
    else if cands.any (fun x => x.1 == a && x.2.1 == c) then cands
    else cands ++ [(a, c, deduction_tv tv_ab tv_bc, ab_id, bc_id)]

/-- Outer step of the candidate scan: pair one `pab` against every triple. -/
def dedCandOuter (s : AtomSpace) (links : List InhTriple) (cands : List DedCand)
    (pab : InhTriple) : List DedCand :=
  links.foldl (dedCandStep s pab) cands

/-- The candidate list of one `deduction_step` round. -/
def dedCandidates (s : AtomSpace) (links : List InhTriple) : List DedCand :=
  links.foldl (dedCandOuter s links) []

/-- Materialization step: insert one candidate conclusion via `add_link`
and record an `Inference` only if the store reports it as newly created. -/
def dedMatStep (acc : AtomSpace × List Inference) (cand : DedCand) :
    AtomSpace × List Inference :=
  match cand with
  | (a, c, tv, ab_id, bc_id) =>
    let r := add_link acc.1 .InheritanceLink [a, c] tv
    if r.2.2 then (r.1, acc.2 ++ [⟨"deduction", [ab_id, bc_id], r.2.1, tv⟩])
    else (r.1, acc.2)

/-- Materialize all candidates of a round. -/
def dedMaterialize (s : AtomSpace) (cands : List DedCand) : AtomSpace × List Inference :=
  cands.foldl dedMatStep (s, [])

/-- `deduction_step` from `src/pln.rs`. -/
def deduction_step (s : AtomSpace) : AtomSpace × List Inference :=
  dedMaterialize s (dedCandidates s (inhTriples s))

/-- `forward_chain` from `src/pln.rs`: up to `max_depth` rounds of
`deduction_step`, stopping at the first round that yields nothing. -/
def forward_chain (s : AtomSpace) (max_depth : ℕ) : AtomSpace × List Inference :=
  match max_depth with
  | 0 => (s, [])
  | Nat.succ d =>
    let r := deduction_step s
    if r.2.isEmpty then (r.1, [])
    else
      let rest := forward_chain r.1 d
      (rest.1, r.2 ++ rest.2)

/-! ### Tikkun integrity auditor (`src/tikkun.rs`) -/

/-- `TikkunCheck`. -/
structure TikkunCheck where
  name : String
  passed : Bool
  detail : Option String
  deriving DecidableEq, Repr

/-- `TikkunReport`. -/
structure TikkunReport where
  checks : List TikkunCheck
  all_healthy : Bool
  deriving DecidableEq, Repr

/-- `run_tikkun` from `src/tikkun.rs`: the five read-only integrity
checks over a store. -/
def run_tikkun (s : AtomSpace) : TikkunReport :=
  let count := s.size
  let invalid_tvs := ((all_atoms_sorted s).filter (fun a => !a.tv.is_valid)).length
  let orphans :=
    ((((all_atoms_sorted s).filter (fun a => a.atom_type.is_link)).flatMap
        (fun a => a.outgoing)).filter (fun id => (s.get id).isNone)).length
  let types := types_present s
  let self_loops :=
    (((get_by_type s .InheritanceLink).filterMap s.get).filter
      (fun a => match a.outgoing with
        | [x, y] => x == y
        | _ => false)).length
  let checks : List TikkunCheck :=
    [⟨"atoms>0", decide (0 < count), some (toString count ++ " atoms")⟩,
     ⟨"tvs-valid", decide (invalid_tvs = 0),
       if 0 < invalid_tvs then some (toString invalid_tvs ++ " invalid") else none⟩,
     ⟨"no-orphans", decide (orphans = 0),
       if 0 < orphans then some (toString orphans ++ " orphan refs") else none⟩,
     ⟨"has-types", decide (2 ≤ types.length), some (toString types.length ++ " types")⟩,
     ⟨"no-self-inherit", decide (self_loops = 0),
       if 0 < self_loops then some (toString self_loops ++ " self-loops") else none⟩]
  ⟨checks, checks.all (fun c => c.passed)⟩

/-! ### Insertion sequences

The two mutating public store operations, packaged as data so that
"after any sequence of insertions" can be quantified over.  Truth values
are taken as raw `(strength, confidence)` inputs and constructed with
`TruthValue::new`, exactly as every call site in the repository does. -/

/-- One public insertion call. -/
inductive StoreOp where
  | node (t : AtomType) (name : String) (strength confidence : ℚ)
  | link (t : AtomType) (outgoing : List AtomId) (strength confidence : ℚ)
  deriving DecidableEq, Repr

/-- Apply one insertion call to a store. -/
def applyOp (s : AtomSpace) : StoreOp → AtomSpace
  | .node t name st cf => (add_node s t name (TruthValue.new st cf)).1
  | .link t out st cf => (add_link s t out (TruthValue.new st cf)).1

/-- Apply a sequence of insertion calls, left to right. -/
def applyOps (s : AtomSpace) (ops : List StoreOp) : AtomSpace :=
  ops.foldl applyOp s

/-- Check that every `link` insertion in a sequence only references atom
ids that exist in the store at the moment of that call (the calling
contract of `add_link` stated by the spec). -/
def opsOk (s : AtomSpace) : List StoreOp → Bool
  | [] => true
  | op :: rest =>
    (match op with
     | .node _ _ _ _ => true
     | .link _ out _ _ => out.all (fun i => (s.get i).isSome)) && opsOk (applyOp s op) rest

/-! ### Specification-side definitions

Relations, invariants and path predicates the theorems are phrased with,
plus the concrete stores used as test inputs. -/

/-- Lift a relation on values to key-value pairs with equal keys. -/
def keyRel {α β : Type} (R : β → β → Prop) (p q : α × β) : Prop :=
  p.1 = q.1 ∧ R p.2 q.2

/-- sti read off an atom table. -/
def stiOfA (l : List (AtomId × Atom)) (id : AtomId) : ℚ :=
  match lookup? l id with
  | some a => a.av.sti
  | none => 0

/-- `b` differs from `a` at most in its short-term importance: every other
field, including the truth value and the long-term importance, agrees. -/
def StiOnly (a b : Atom) : Prop :=
  b.id = a.id ∧ b.atom_type = a.atom_type ∧ b.name = a.name ∧
    b.outgoing = a.outgoing ∧ b.tv = a.tv ∧ b.av.lti = a.av.lti

/-- `b` agrees with `a` on every field except that its truth value's
confidence may have grown (the only change a re-insertion merge makes). -/
def ConfLe (a b : Atom) : Prop :=
  b.id = a.id ∧ b.atom_type = a.atom_type ∧ b.name = a.name ∧
    b.outgoing = a.outgoing ∧ b.av = a.av ∧ a.tv.confidence ≤ b.tv.confidence

/-- After one insertion with truth value `tv`, an existing atom is either
untouched or wholly overwritten with `tv` because `tv` carried strictly
more confidence. -/
def MergedInto (tv : TruthValue) (a b : Atom) : Prop :=
  b = a ∨ (b = { a with tv := tv } ∧ a.tv.confidence < tv.confidence)

/-- The spec's per-type boost weight table: 1.0 for list links, 0.85 for
evaluation and inheritance links, 0.95 for concept nodes, 0.5 for
predicate nodes. -/
def typeWeight : AtomType → ℚ
  | .ListLink => 1
  | .EvaluationLink => 0.85
  | .InheritanceLink => 0.85
  | .ConceptNode => 0.95
  | .PredicateNode => 0.5

/-- Store well-formedness: the id counter starts at 1 and dominates every
id held by the atom table or any index, keys are unique, and the two dedup
indices point at existing atoms.  `AtomSpace::new` establishes this and
both insertion operations preserve it. -/
def wf (s : AtomSpace) : Prop :=
  1 ≤ s.nextId ∧
  (s.atoms.map Prod.fst).Nodup ∧
  (∀ p ∈ s.atoms, p.1 < s.nextId) ∧
  (∀ p ∈ s.nodeIndex, p.2 < s.nextId) ∧
  (∀ p ∈ s.linkIndex, p.2 < s.nextId) ∧
  (∀ p ∈ s.typeIndex, ∀ i ∈ p.2, i < s.nextId) ∧
  (∀ p ∈ s.incoming, ∀ i ∈ p.2, i < s.nextId) ∧
  (∀ p ∈ s.nodeIndex, (lookup? s.atoms p.2).isSome = true) ∧
  (∀ p ∈ s.linkIndex, (lookup? s.atoms p.2).isSome = true)

instance wf.decidable (s : AtomSpace) : Decidable (wf s) := by
  unfold wf
  infer_instance

/-- A chain of `n ≥ 1` consecutive edges of `E` from `a` to `c`. -/
inductive chainPath (E : List (AtomId × AtomId)) : AtomId → AtomId → ℕ → Prop where
  | single {a b : AtomId} : (a, b) ∈ E → chainPath E a b 1
  | comp {a b c : AtomId} {m n : ℕ} :
      chainPath E a b m → chainPath E b c n → chainPath E a c (m + n)

/-- The inheritance edge contributed by one stored atom, if it is a
binary link: the `(source, target)` pair of its snapshot triple. -/
def edgeOf (s : AtomSpace) (id : AtomId) : Option (AtomId × AtomId) :=
  (tripleOf s id).map (fun t => (t.1, t.2.1))

/-- Whether `forward_chain` run with this much fuel hits a round that
yields zero new links (rather than stopping only because the fuel ran
out). -/
def reachesFixpoint (s : AtomSpace) : ℕ → Bool
  | 0 => false
  | Nat.succ d =>
    let r := deduction_step s
    if r.2.isEmpty then true else reachesFixpoint r.1 d

/-- What every candidate selected by a `deduction_step` round satisfies:
it composes two snapshot triples sharing their middle term, and its
conclusion key was absent from the store when the round was scanned. -/
def CandSpec (s : AtomSpace) (links : List InhTriple) (x : DedCand) : Prop :=
  (∃ pab ∈ links, ∃ pbc ∈ links,
    pab.2.1 = pbc.1 ∧ x.1 = pab.1 ∧ x.2.1 = pbc.2.1) ∧
  find_link s .InheritanceLink [x.1, x.2.1] = none

/-- Every inheritance edge of `s` is connected by a chain of at most `B`
edges of `E`. -/
def EdgesBounded (E : List (AtomId × AtomId)) (s : AtomSpace) (B : ℕ) : Prop :=
  ∀ e ∈ inhEdges s, ∃ n, 1 ≤ n ∧ n ≤ B ∧ chainPath E e.1 e.2 n

/-- The inheritance part of the link index is in sync with the stored
atoms: every binary inheritance edge can be found through `find_link`,
and every inheritance entry of the link index resolves to a stored atom
carrying the entry's outgoing list and registered under the inheritance
entry of the type index.  `AtomSpace::new` establishes this and
`add_link` preserves it, so every store the program builds satisfies
it. -/
def InhIndexOk (s : AtomSpace) : Prop :=
  (∀ e ∈ inhEdges s, (find_link s .InheritanceLink [e.1, e.2]).isSome = true) ∧
  (∀ p ∈ s.linkIndex, p.1.1 = AtomType.InheritanceLink →
    (∃ a, lookup? s.atoms p.2 = some a ∧ a.outgoing = p.1.2) ∧
      p.2 ∈ get_by_type s .InheritanceLink)

instance atomAtKeyDec (o : Option Atom) (out : List AtomId) :
    Decidable (∃ a, o = some a ∧ a.outgoing = out) :=
  match o with
  | none => isFalse (fun h => by obtain ⟨a, ha, _⟩ := h; cases ha)
  | some b =>
    if h : b.outgoing = out then isTrue ⟨b, rfl, h⟩
    else isFalse (fun hc => by
      obtain ⟨a, ha, hout⟩ := hc
      cases ha
      exact h hout)

instance InhIndexOk.decidable (s : AtomSpace) : Decidable (InhIndexOk s) := by
  unfold InhIndexOk
  infer_instance

/-- Every ordered pair of distinct atoms joined by a chain of at most
`c` edges of `E` is already present as a stored inheritance edge of
`s`. -/
def CoveredUpTo (E : List (AtomId × AtomId)) (s : AtomSpace) (c : ℕ) : Prop :=
  ∀ a b : AtomId, a ≠ b → (∃ n, 1 ≤ n ∧ n ≤ c ∧ chainPath E a b n) → (a, b) ∈ inhEdges s

/-- Every stored truth value is within range. -/
def TVsValid (s : AtomSpace) : Prop := ∀ p ∈ s.atoms, p.2.tv.is_valid = true

/-- Every outgoing reference of every stored atom resolves. -/
def OrphanFree (s : AtomSpace) : Prop :=
  ∀ p ∈ s.atoms, ∀ i ∈ p.2.outgoing, (s.get i).isSome = true

/-- Everything one insertion call must preserve: well-formedness, the id
counter's monotonicity, every existing atom (same type, name, outgoing),
every entry of all four indices, plus freshness of a newly assigned id. -/
def InsertPreserves (s s' : AtomSpace) (id : AtomId) (isNew : Bool) : Prop :=
  wf s' ∧ s.nextId ≤ s'.nextId ∧
  (∀ p ∈ s.atoms, ∃ q ∈ s'.atoms, p.1 = q.1 ∧ q.2.atom_type = p.2.atom_type ∧
    q.2.name = p.2.name ∧ q.2.outgoing = p.2.outgoing) ∧
  (∀ (k : AtomType × String) (v : AtomId),
    lookup? s.nodeIndex k = some v → lookup? s'.nodeIndex k = some v) ∧
  (∀ (k : AtomType × List AtomId) (v : AtomId),
    lookup? s.linkIndex k = some v → lookup? s'.linkIndex k = some v) ∧
  (∀ (ty : AtomType) (i : AtomId), i ∈ get_by_type s ty → i ∈ get_by_type s' ty) ∧
  (∀ (j i : AtomId), i ∈ get_incoming s j → i ∈ get_incoming s' j) ∧
  (isNew = true → id = s.nextId ∧ s'.nextId = s.nextId + 1 ∧ ∀ p ∈ s.atoms, p.1 ≠ id) ∧
  (isNew = false → s'.nextId = s.nextId)

/-- Every atom of `s` survives into `s'` with the same id and at most a
confidence increase on its truth value. -/
def StorePresConf (s s' : AtomSpace) : Prop :=
  ∀ p ∈ s.atoms, ∃ q ∈ s'.atoms, p.1 = q.1 ∧ ConfLe p.2 q.2

/-- What double insertion of one node key must satisfy: same id both
times, `is_new = false` the second time, at most one new atom across both
calls, and confidence-max overwrite of the stored truth value. -/
def NodeIdemProp (s : AtomSpace) (t : AtomType) (name : String)
    (tv1 tv2 : TruthValue) : Prop :=
  (add_node (add_node s t name tv1).1 t name tv2).2.1 = (add_node s t name tv1).2.1 ∧
  (add_node (add_node s t name tv1).1 t name tv2).2.2 = false ∧
  (add_node (add_node s t name tv1).1 t name tv2).1.size ≤ s.size + 1 ∧
  ∃ a1 a2,
    (add_node s t name tv1).1.get (add_node s t name tv1).2.1 = some a1 ∧
    (add_node (add_node s t name tv1).1 t name tv2).1.get
        (add_node s t name tv1).2.1 = some a2 ∧
    (tv2.confidence > a1.tv.confidence → a2.tv = tv2) ∧
    (¬tv2.confidence > a1.tv.confidence → a2.tv = a1.tv)

/-- The link-key analogue of `NodeIdemProp`. -/
def LinkIdemProp (s : AtomSpace) (t : AtomType) (outgoing : List AtomId)
    (tv1 tv2 : TruthValue) : Prop :=
  (add_link (add_link s t outgoing tv1).1 t outgoing tv2).2.1 =
      (add_link s t outgoing tv1).2.1 ∧
  (add_link (add_link s t outgoing tv1).1 t outgoing tv2).2.2 = false ∧
  (add_link (add_link s t outgoing tv1).1 t outgoing tv2).1.size ≤ s.size + 1 ∧
  ∃ a1 a2,
    (add_link s t outgoing tv1).1.get (add_link s t outgoing tv1).2.1 = some a1 ∧
    (add_link (add_link s t outgoing tv1).1 t outgoing tv2).1.get
        (add_link s t outgoing tv1).2.1 = some a2 ∧
    (tv2.confidence > a1.tv.confidence → a2.tv = tv2) ∧
    (¬tv2.confidence > a1.tv.confidence → a2.tv = a1.tv)

/-! ### Concrete test inputs -/

/-- A test configuration with kernel-computable rationals:
`spread_fraction = 3/10`, `decay_factor = 7/10`, `initial_sti = 40`,
`rent = 1/2`. -/
def cfgEx : EcanConfig :=
  ⟨⟨3, 10, by decide, by decide⟩, ⟨7, 10, by decide, by decide⟩, 40,
    ⟨1, 2, by decide, by decide⟩⟩

/-- A 3-concept inheritance chain `a→b→c` (node ids 1-3, link ids 4-5). -/
def chain3 : AtomSpace :=
  applyOps AtomSpace.empty
    [.node .ConceptNode "a" 1 1, .node .ConceptNode "b" 1 1, .node .ConceptNode "c" 1 1,
     .link .InheritanceLink [1, 2] 1 1, .link .InheritanceLink [2, 3] 1 1]

/-- A 4-concept inheritance chain `a→b→c→d` (node ids 1-4, link ids 5-7). -/
def chain4 : AtomSpace :=
  applyOps AtomSpace.empty
    [.node .ConceptNode "a" 1 1, .node .ConceptNode "b" 1 1, .node .ConceptNode "c" 1 1,
     .node .ConceptNode "d" 1 1,
     .link .InheritanceLink [1, 2] 1 1, .link .InheritanceLink [2, 3] 1 1,
     .link .InheritanceLink [3, 4] 1 1]

/-- A 5-concept inheritance chain `a→b→c→d→e` (node ids 1-5, link ids 6-9). -/
def chain5 : AtomSpace :=
  applyOps AtomSpace.empty
    [.node .ConceptNode "a" 1 1, .node .ConceptNode "b" 1 1, .node .ConceptNode "c" 1 1,
     .node .ConceptNode "d" 1 1, .node .ConceptNode "e" 1 1,
     .link .InheritanceLink [1, 2] 1 1, .link .InheritanceLink [2, 3] 1 1,
     .link .InheritanceLink [3, 4] 1 1, .link .InheritanceLink [4, 5] 1 1]

/-- A store built by one `add_link` call whose outgoing id 5 was never
inserted: the argument validation `add_link` does not perform. -/
def orphanEx : AtomSpace :=
  applyOps AtomSpace.empty [.link .InheritanceLink [5] 1 1]

/-- A store holding one isolated concept node (id 1). -/
def nodeEx : AtomSpace :=
  applyOps AtomSpace.empty [.node .ConceptNode "x" 1 1]

/-- The isolated concept node stored in `nodeEx`. -/
def nodeExAtom : Atom := Atom.new_node 1 .ConceptNode "x" (TruthValue.new 1 1)

/-- A store holding one concept node inserted with confidence 0. -/
def lowConfEx : AtomSpace :=
  applyOps AtomSpace.empty [.node .ConceptNode "x" 1 0]

/-- A small well-behaved insertion sequence: one node, then one link over
it. -/
def demoOps : List StoreOp :=
  [.node .ConceptNode "a" 1 1, .link .ListLink [1] 1 1]

/-- Two atoms with equal sti 5 and distinct ids, for the tie-break test. -/
def tieAtomA : Atom :=
  ⟨1, .ConceptNode, some "a", [], TruthValue.new 1 1, ⟨5, 0⟩⟩

/-- Second tie-break test atom; differs from `tieAtomA` only in id/name. -/
def tieAtomB : Atom :=
  ⟨2, .ConceptNode, some "b", [], TruthValue.new 1 1, ⟨5, 0⟩⟩

/-- A store holding the two tied atoms, as built by the insertion API. -/
def tieStore : AtomSpace :=
  { AtomSpace.empty with
      atoms := [(1, tieAtomA), (2, tieAtomB)]
      nextId := 3
      nodeIndex := [((.ConceptNode, "a"), 1), ((.ConceptNode, "b"), 2)]
      typeIndex := [(.ConceptNode, [1, 2])] }

/-! ### Association-list lemmas -/

theorem lookup?_eq_none {α β : Type} [DecidableEq α] {l : List (α × β)} {k : α}
    (h : ∀ p ∈ l, p.1 ≠ k) : lookup? l k = none := by
  induction l with
  | nil => rfl
  | cons p rest ih =>
    simp only [lookup?]
    rw [if_neg (h p (List.mem_cons_self p rest))]
    exact ih (fun q hq => h q (List.mem_cons_of_mem p hq))

theorem lookup?_mem {α β : Type} [DecidableEq α] {l : List (α × β)} {k : α} {v : β}
    (h : lookup? l k = some v) : (k, v) ∈ l := by
  induction l with
  | nil => simp [lookup?] at h
  | cons p rest ih =>
    simp only [lookup?] at h
    by_cases hk : p.1 = k
    · rw [if_pos hk] at h
      have hv : p.2 = v := Option.some.inj h
      have : p = (k, v) := Prod.ext hk hv
      rw [← this]
      exact List.mem_cons_self p rest
    · rw [if_neg hk] at h
      exact List.mem_cons_of_mem p (ih h)

theorem lookup?_append_left {α β : Type} [DecidableEq α] {l : List (α × β)} {k : α} {v : β}
    (l2 : List (α × β)) (h : lookup? l k = some v) : lookup? (l ++ l2) k = some v := by
  induction l with
  | nil => simp [lookup?] at h
  | cons p rest ih =>
    simp only [lookup?, List.cons_append] at h ⊢
    by_cases hk : p.1 = k
    · rwa [if_pos hk] at h ⊢
    · rw [if_neg hk] at h ⊢
      exact ih h

theorem lookup?_append_right {α β : Type} [DecidableEq α] {l : List (α × β)} {k : α}
    (l2 : List (α × β)) (h : lookup? l k = none) : lookup? (l ++ l2) k = lookup? l2 k := by
  induction l with
  | nil => rfl
  | cons p rest ih =>
    simp only [lookup?, List.cons_append] at h ⊢
    by_cases hk : p.1 = k
    · rw [if_pos hk] at h
      exact absurd h (by simp)
    · rw [if_neg hk] at h ⊢
      exact ih h

theorem lookup?_updateAssoc_self {α β : Type} [DecidableEq α] (l : List (α × β)) (k : α)
    (f : β → β) : lookup? (updateAssoc l k f) k = (lookup? l k).map f := by
  induction l with
  | nil => rfl
  | cons p rest ih =>
    simp only [updateAssoc, lookup?]
    by_cases hk : p.1 = k
    · rw [if_pos hk]
      simp only [lookup?, if_pos hk, Option.map_some']
    · rw [if_neg hk]
      simp only [lookup?, if_neg hk]
      exact ih

theorem lookup?_updateAssoc_ne {α β : Type} [DecidableEq α] (l : List (α × β)) {j k : α}
    (f : β → β) (h : j ≠ k) : lookup? (updateAssoc l k f) j = lookup? l j := by
  induction l with
  | nil => rfl
  | cons p rest ih =>
    simp only [updateAssoc, lookup?]
    by_cases hk : p.1 = k
    · rw [if_pos hk]
      simp only [lookup?]
      rw [if_neg (by rw [hk]; exact fun hjk => h hjk.symm), if_neg (by rw [hk]; exact fun hjk => h hjk.symm)]
    · rw [if_neg hk]
      simp only [lookup?]
      by_cases hj : p.1 = j
      · rw [if_pos hj, if_pos hj]
      · rw [if_neg hj, if_neg hj]
        exact ih

theorem updateAssoc_length {α β : Type} [DecidableEq α] (l : List (α × β)) (k : α)
    (f : β → β) : (updateAssoc l k f).length = l.length := by
  induction l with
  | nil => rfl
  | cons p rest ih =>
    simp only [updateAssoc]
    by_cases hk : p.1 = k
    · rw [if_pos hk]
      simp
    · rw [if_neg hk]
      simp [ih]

theorem lookup?_pushEntry_self {α β : Type} [DecidableEq α] (l : List (α × List β)) (k : α)
    (x : β) : lookup? (pushEntry l k x) k = some ((lookup? l k).getD [] ++ [x]) := by
  induction l with
  | nil => simp [pushEntry, lookup?]
  | cons p rest ih =>
    simp only [pushEntry, lookup?]
    by_cases hk : p.1 = k
    · rw [if_pos hk]
      simp only [lookup?, if_pos hk, Option.getD_some]
    · rw [if_neg hk]
      simp only [lookup?, if_neg hk]
      exact ih

theorem lookup?_pushEntry_ne {α β : Type} [DecidableEq α] (l : List (α × List β)) {j k : α}
    (x : β) (h : j ≠ k) : lookup? (pushEntry l k x) j = lookup? l j := by
  induction l with
  | nil =>
    simp only [pushEntry, lookup?]
    rw [if_neg (fun hjk => h hjk.symm)]
  | cons p rest ih =>
    simp only [pushEntry, lookup?]
    by_cases hk : p.1 = k
    · rw [if_pos hk]
      simp only [lookup?]
      rw [if_neg (by rw [hk]; exact fun hjk => h hjk.symm), if_neg (by rw [hk]; exact fun hjk => h hjk.symm)]
    · rw [if_neg hk]
      simp only [lookup?]
      by_cases hj : p.1 = j
      · rw [if_pos hj, if_pos hj]
      · rw [if_neg hj, if_neg hj]
        exact ih

/-! ### Generic fold and relation-transfer lemmas -/

theorem foldl_preserve {γ α : Type} (P : α → Prop) (step : α → γ → α) (l0 : List γ)
    (h : ∀ acc y, y ∈ l0 → P acc → P (step acc y)) :
    ∀ l : List γ, (∀ y ∈ l, y ∈ l0) → ∀ init, P init → P (List.foldl step init l) := by
  intro l
  induction l with
  | nil => intro _ init hP; exact hP
  | cons y ys ih =>
    intro hsub init hP
    simp only [List.foldl_cons]
    exact ih (fun z hz => hsub z (List.mem_cons_of_mem y hz))
      (step init y) (h init y (hsub y (List.mem_cons_self y ys)) hP)

theorem keyRel_refl {α β : Type} {R : β → β → Prop} (hR : Reflexive R) :
    ∀ p : α × β, keyRel R p p := fun p => ⟨rfl, hR p.2⟩

theorem keyRel_trans {α β : Type} {R : β → β → Prop} (hR : Transitive R) :
    ∀ p q r : α × β, keyRel R p q → keyRel R q r → keyRel R p r :=
  fun _ _ _ h1 h2 => ⟨h1.1.trans h2.1, hR h1.2 h2.2⟩

theorem forall₂_refl_of {α : Type} {S : α → α → Prop} (hS : ∀ a, S a a) :
    ∀ l : List α, List.Forall₂ S l l := by
  intro l
  induction l with
  | nil => exact List.Forall₂.nil
  | cons x xs ih => exact List.Forall₂.cons (hS x) ih

theorem forall₂_trans_of {α : Type} {S : α → α → Prop}
    (hS : ∀ a b c, S a b → S b c → S a c) {l1 l2 l3 : List α}
    (h1 : List.Forall₂ S l1 l2) (h2 : List.Forall₂ S l2 l3) : List.Forall₂ S l1 l3 := by
  induction h1 generalizing l3 with
  | nil => cases h2; exact List.Forall₂.nil
  | cons hxy _ ih =>
    cases h2 with
    | cons hyz hrest => exact List.Forall₂.cons (hS _ _ _ hxy hyz) (ih hrest)

theorem forall₂_mem {α : Type} {S : α → α → Prop} {l l' : List α}
    (h : List.Forall₂ S l l') : ∀ p ∈ l, ∃ q ∈ l', S p q := by
  induction h with
  | nil => intro p hp; cases hp
  | cons hxy _ ih =>
    intro p hp
    rcases List.mem_cons.mp hp with hp | hp
    · subst hp; exact ⟨_, List.mem_cons_self _ _, hxy⟩
    · obtain ⟨q, hq, hS⟩ := ih p hp
      exact ⟨q, List.mem_cons_of_mem _ hq, hS⟩

theorem lookup?_forall₂ {α β : Type} [DecidableEq α] {R : β → β → Prop}
    {l l' : List (α × β)} (h : List.Forall₂ (keyRel R) l l') (k : α) :
    (lookup? l k = none ∧ lookup? l' k = none) ∨
      ∃ a b, lookup? l k = some a ∧ lookup? l' k = some b ∧ R a b := by
  induction h with
  | nil => exact Or.inl ⟨rfl, rfl⟩
  | @cons p q l1 l2 hpq _ ih =>
    simp only [lookup?]
    by_cases hk : p.1 = k
    · rw [if_pos hk, if_pos (hpq.1 ▸ hk)]
      exact Or.inr ⟨p.2, q.2, rfl, rfl, hpq.2⟩
    · rw [if_neg hk, if_neg (hpq.1 ▸ hk)]
      exact ih

theorem updateAssoc_forall₂ {α β : Type} [DecidableEq α] (l : List (α × β)) (k : α)
    (f : β → β) :
    List.Forall₂ (keyRel (fun a b => b = a ∨ b = f a)) l (updateAssoc l k f) := by
  induction l with
  | nil => exact List.Forall₂.nil
  | cons p rest ih =>
    simp only [updateAssoc]
    by_cases hk : p.1 = k
    · rw [if_pos hk]
      exact List.Forall₂.cons ⟨rfl, Or.inr rfl⟩
        (forall₂_refl_of (fun q => ⟨rfl, Or.inl rfl⟩) rest)
    · rw [if_neg hk]
      exact List.Forall₂.cons ⟨rfl, Or.inl rfl⟩ ih

theorem updateAssoc_forall₂_rel {α β : Type} [DecidableEq α] {R : β → β → Prop}
    {f : β → β} (hrefl : Reflexive R) (hf : ∀ a, R a (f a)) (l : List (α × β)) (k : α) :
    List.Forall₂ (keyRel R) l (updateAssoc l k f) := by
  have h := updateAssoc_forall₂ l k f
  refine List.Forall₂.imp (fun p q hpq => ⟨hpq.1, ?_⟩) h
  rcases hpq.2 with h2 | h2
  · rw [h2]; exact hrefl p.2
  · rw [h2]; exact hf p.2

/-! ### Sorting lemmas -/

theorem insertSorted_perm {α : Type} (le : α → α → Bool) (x : α) (l : List α) :
    (insertSorted le x l).Perm (x :: l) := by
  induction l with
  | nil => exact List.Perm.refl _
  | cons y ys ih =>
    simp only [insertSorted]
    by_cases hle : le x y
    · rw [if_pos hle]
    · rw [if_neg hle]
      exact (List.Perm.cons y ih).trans (List.Perm.swap x y ys)

theorem insertionSort_perm {α : Type} (le : α → α → Bool) (l : List α) :
    (insertionSort le l).Perm l := by
  induction l with
  | nil => exact List.Perm.refl _
  | cons x xs ih =>
    exact (insertSorted_perm le x (insertionSort le xs)).trans (List.Perm.cons x ih)

theorem mem_insertionSort {α : Type} (le : α → α → Bool) (l : List α) (a : α) :
    a ∈ insertionSort le l ↔ a ∈ l :=
  (insertionSort_perm le l).mem_iff

theorem insertSorted_pairwise {α : Type} {le : α → α → Bool}
    (htot : ∀ a b, le a b = true ∨ le b a = true)
    (htrans : ∀ a b c, le a b = true → le b c = true → le a c = true)
    (x : α) (l : List α) (h : l.Pairwise (fun a b => le a b = true)) :
    (insertSorted le x l).Pairwise (fun a b => le a b = true) := by
  induction l with
  | nil => simp [insertSorted]
  | cons y ys ih =>
    simp only [insertSorted]
    rcases List.pairwise_cons.mp h with ⟨hy, hys⟩
    by_cases hle : le x y
    · rw [if_pos hle]
      refine List.pairwise_cons.mpr ⟨?_, h⟩
      intro z hz
      rcases List.mem_cons.mp hz with hz | hz
      · rw [hz]; exact hle
      · exact htrans x y z hle (hy z hz)
    · rw [if_neg hle]
      refine List.pairwise_cons.mpr ⟨?_, ih hys⟩
      intro z hz
      rcases (insertSorted_perm le x ys).mem_iff.mp hz with hz2
      rcases List.mem_cons.mp hz2 with hz2 | hz2
      · rw [hz2]
        rcases htot x y with hxy | hyx
        · exact absurd hxy hle
        · exact hyx
      · exact hy z hz2

theorem insertionSort_pairwise {α : Type} {le : α → α → Bool}
    (htot : ∀ a b, le a b = true ∨ le b a = true)
    (htrans : ∀ a b c, le a b = true → le b c = true → le a c = true)
    (l : List α) : (insertionSort le l).Pairwise (fun a b => le a b = true) := by
  induction l with
  | nil => exact List.Pairwise.nil
  | cons x xs ih => exact insertSorted_pairwise htot htrans x (insertionSort le xs) ih

/-! ### Attention-phase lemmas -/

theorem stiOf_eq_stiOfA (s : AtomSpace) (id : AtomId) : stiOf s id = stiOfA s.atoms id := rfl

theorem stiOfA_update_ne {l : List (AtomId × Atom)} {j k : AtomId} (f : Atom → Atom)
    (h : j ≠ k) : stiOfA (updateAssoc l k f) j = stiOfA l j := by
  unfold stiOfA
  rw [lookup?_updateAssoc_ne l f h]

theorem stiOfA_update_addSti (l : List (AtomId × Atom)) (k : AtomId) (q : ℚ)
    (h : (lookup? l k).isSome = true) :
    stiOfA (updateAssoc l k (addSti q)) k = stiOfA l k + q := by
  unfold stiOfA
  rw [lookup?_updateAssoc_self]
  obtain ⟨a, ha⟩ := Option.isSome_iff_exists.mp h
  rw [ha]
  simp [addSti]

theorem lookup?_update_isSome {α β : Type} [DecidableEq α] (l : List (α × β)) (k j : α)
    (f : β → β) : (lookup? (updateAssoc l k f) j).isSome = (lookup? l j).isSome := by
  by_cases hjk : j = k
  · subst hjk
    rw [lookup?_updateAssoc_self]
    cases lookup? l j <;> rfl
  · rw [lookup?_updateAssoc_ne l f hjk]

/-- The per-type boost factors are nonnegative when `initial_sti` is. -/
theorem boostAmount_nonneg {cfg : EcanConfig} (h : 0 ≤ cfg.initial_sti) (t : AtomType) :
    0 ≤ boostAmount cfg t := by
  cases t <;> simp only [boostAmount] <;> positivity

/-- The per-type boost factors are positive when `initial_sti` is. -/
theorem boostAmount_pos {cfg : EcanConfig} (h : 0 < cfg.initial_sti) (t : AtomType) :
    0 < boostAmount cfg t := by
  cases t <;> simp only [boostAmount] <;> positivity

theorem boostAtoms_cons (cfg : EcanConfig) (i : AtomId) (rest : List AtomId)
    (l : List (AtomId × Atom)) :
    boostAtoms cfg (i :: rest) l =
      boostAtoms cfg rest
        (updateAssoc l i (fun a => addSti (boostAmount cfg a.atom_type) a)) := rfl

theorem applySpreads_cons (p : AtomId × ℚ) (rest : List (AtomId × ℚ))
    (l : List (AtomId × Atom)) :
    applySpreads (p :: rest) l = applySpreads rest (updateAssoc l p.1 (addSti p.2)) := rfl

theorem decayAtoms_cons (cfg : EcanConfig) (act : List AtomId) (id : AtomId)
    (rest : List AtomId) (l : List (AtomId × Atom)) :
    decayAtoms cfg act (id :: rest) l =
      decayAtoms cfg act rest
        (if id ∈ act then l else updateAssoc l id (decayAtom cfg)) := rfl

/-- An in-place update that does not decrease the updated atom's sti does
not decrease any table entry's sti. -/
theorem stiOfA_update_le (l : List (AtomId × Atom)) (k : AtomId) (f : Atom → Atom)
    (hf : ∀ a : Atom, a.av.sti ≤ (f a).av.sti) (j : AtomId) :
    stiOfA l j ≤ stiOfA (updateAssoc l k f) j := by
  by_cases hj : j = k
  · subst hj
    unfold stiOfA
    rw [lookup?_updateAssoc_self]
    cases hl : lookup? l j with
    | none => simp
    | some a => simpa using hf a
  · rw [stiOfA_update_ne _ hj]

theorem boostAtoms_sti_mono {cfg : EcanConfig} (h0 : 0 ≤ cfg.initial_sti)
    (act : List AtomId) : ∀ (l : List (AtomId × Atom)) (j : AtomId),
    stiOfA l j ≤ stiOfA (boostAtoms cfg act l) j := by
  induction act with
  | nil => intro l j; exact le_refl _
  | cons i rest ih =>
    intro l j
    rw [boostAtoms_cons]
    refine le_trans ?_ (ih _ j)
    refine stiOfA_update_le l i _ (fun a => ?_) j
    simp only [addSti]
    have := boostAmount_nonneg h0 a.atom_type
    linarith

theorem boostAtoms_single_lookup (cfg : EcanConfig) (l : List (AtomId × Atom)) (i : AtomId)
    (a : Atom) (h : lookup? l i = some a) :
    lookup? (boostAtoms cfg [i] l) i = some (addSti (boostAmount cfg a.atom_type) a) := by
  rw [boostAtoms_cons]
  show lookup? (updateAssoc l i _) i = _
  rw [lookup?_updateAssoc_self, h]
  rfl

theorem applySpreads_sti_mono {spreads : List (AtomId × ℚ)}
    (h : ∀ p ∈ spreads, 0 ≤ p.2) : ∀ (l : List (AtomId × Atom)) (j : AtomId),
    stiOfA l j ≤ stiOfA (applySpreads spreads l) j := by
  induction spreads with
  | nil => intro l j; exact le_refl _
  | cons p rest ih =>
    intro l j
    rw [applySpreads_cons]
    refine le_trans ?_ (ih (fun q hq => h q (List.mem_cons_of_mem p hq)) _ j)
    refine stiOfA_update_le l p.1 _ (fun a => ?_) j
    simp only [addSti]
    have := h p (List.mem_cons_self p rest)
    linarith

theorem applySpreads_sti_of_not_target {spreads : List (AtomId × ℚ)} {i : AtomId}
    (h : ∀ p ∈ spreads, p.1 ≠ i) : ∀ l : List (AtomId × Atom),
    stiOfA (applySpreads spreads l) i = stiOfA l i := by
  induction spreads with
  | nil => intro l; rfl
  | cons p rest ih =>
    intro l
    rw [applySpreads_cons]
    rw [ih (fun q hq => h q (List.mem_cons_of_mem p hq)) _]
    exact stiOfA_update_ne _ (fun hip => (h p (List.mem_cons_self p rest)) hip.symm)

theorem applySpreads_sti_sum (spreads : List (AtomId × ℚ)) :
    ∀ (l : List (AtomId × Atom)) (i : AtomId), (lookup? l i).isSome = true →
    stiOfA (applySpreads spreads l) i =
      stiOfA l i + ((spreads.filter (fun p => p.1 == i)).map Prod.snd).sum := by
  induction spreads with
  | nil => intro l i _; simp [applySpreads]
  | cons p rest ih =>
    intro l i hi
    rw [applySpreads_cons]
    have hsome : (lookup? (updateAssoc l p.1 (addSti p.2)) i).isSome = true := by
      rw [lookup?_update_isSome]; exact hi
    rw [ih _ i hsome]
    by_cases hpi : p.1 = i
    · subst hpi
      rw [stiOfA_update_addSti l p.1 p.2 hi]
      simp [List.filter_cons]
      ring
    · rw [stiOfA_update_ne _ (fun h => hpi h.symm)]
      have hb : (p.1 == i) = false := beq_eq_false_iff_ne.mpr hpi
      simp [List.filter_cons, hb]

theorem decayAtoms_lookup_of_not_mem {cfg : EcanConfig} {act : List AtomId}
    {ids : List AtomId} {i : AtomId} (h : i ∉ ids) : ∀ l : List (AtomId × Atom),
    lookup? (decayAtoms cfg act ids l) i = lookup? l i := by
  induction ids with
  | nil => intro l; rfl
  | cons id rest ih =>
    intro l
    have hne : i ≠ id := fun hh => h (hh ▸ List.mem_cons_self id rest)
    have hrest : i ∉ rest := fun hh => h (List.mem_cons_of_mem id hh)
    rw [decayAtoms_cons, ih hrest _]
    by_cases hact : id ∈ act
    · rw [if_pos hact]
    · rw [if_neg hact]
      exact lookup?_updateAssoc_ne l _ hne

theorem decayAtoms_sti_of_activated {cfg : EcanConfig} {act : List AtomId}
    {ids : List AtomId} {i : AtomId} (h : i ∈ act) : ∀ l : List (AtomId × Atom),
    stiOfA (decayAtoms cfg act ids l) i = stiOfA l i := by
  induction ids with
  | nil => intro l; rfl
  | cons id rest ih =>
    intro l
    rw [decayAtoms_cons, ih _]
    by_cases hact : id ∈ act
    · rw [if_pos hact]
    · rw [if_neg hact]
      have hne : i ≠ id := fun hh => hact (hh ▸ h)
      exact stiOfA_update_ne _ hne

theorem decayAtoms_lookup_apply {cfg : EcanConfig} {act : List AtomId} {i : AtomId} :
    ∀ {ids : List AtomId}, i ∉ act → ids.Nodup → i ∈ ids →
    ∀ l : List (AtomId × Atom),
    lookup? (decayAtoms cfg act ids l) i = (lookup? l i).map (decayAtom cfg) := by
  intro ids
  induction ids with
  | nil => intro _ _ hmem; cases hmem
  | cons id rest ih =>
    intro hact hnodup hmem l
    rw [decayAtoms_cons]
    rcases List.mem_cons.mp hmem with hii | hrest
    · subst hii
      rw [if_neg hact]
      have hnotin : i ∉ rest := (List.nodup_cons.mp hnodup).1
      rw [decayAtoms_lookup_of_not_mem hnotin _]
      exact lookup?_updateAssoc_self l i _
    · have hnd : rest.Nodup := (List.nodup_cons.mp hnodup).2
      rw [ih hact hnd hrest _]
      by_cases hacti : id ∈ act
      · rw [if_pos hacti]
      · rw [if_neg hacti]
        by_cases hide : i = id
        · subst hide; exact absurd hrest (List.nodup_cons.mp hnodup).1
        · rw [lookup?_updateAssoc_ne l _ hide]

/-! ### Frame relations: what the attention phases may and may not touch -/

theorem stiOnly_refl : Reflexive StiOnly :=
  fun _ => ⟨rfl, rfl, rfl, rfl, rfl, rfl⟩

theorem stiOnly_trans : Transitive StiOnly := by
  intro a b c h1 h2
  exact ⟨h2.1.trans h1.1, h2.2.1.trans h1.2.1, h2.2.2.1.trans h1.2.2.1,
    h2.2.2.2.1.trans h1.2.2.2.1, h2.2.2.2.2.1.trans h1.2.2.2.2.1,
    h2.2.2.2.2.2.trans h1.2.2.2.2.2⟩

theorem stiOnly_addSti (q : ℚ) (a : Atom) : StiOnly a (addSti q a) :=
  ⟨rfl, rfl, rfl, rfl, rfl, rfl⟩

theorem stiOnly_decayAtom (cfg : EcanConfig) (a : Atom) : StiOnly a (decayAtom cfg a) := by
  unfold decayAtom
  by_cases h : a.av.sti > 0
  · rw [if_pos h]; exact ⟨rfl, rfl, rfl, rfl, rfl, rfl⟩
  · rw [if_neg h]; exact stiOnly_refl a

theorem boostAtoms_stiOnly (cfg : EcanConfig) (act : List AtomId) :
    ∀ l : List (AtomId × Atom),
    List.Forall₂ (keyRel StiOnly) l (boostAtoms cfg act l) := by
  induction act with
  | nil => intro l; exact forall₂_refl_of (keyRel_refl stiOnly_refl) l
  | cons i rest ih =>
    intro l
    rw [boostAtoms_cons]
    refine forall₂_trans_of (keyRel_trans stiOnly_trans) ?_ (ih _)
    exact updateAssoc_forall₂_rel stiOnly_refl (fun a => stiOnly_addSti _ a) l i

theorem applySpreads_stiOnly (spreads : List (AtomId × ℚ)) :
    ∀ l : List (AtomId × Atom),
    List.Forall₂ (keyRel StiOnly) l (applySpreads spreads l) := by
  induction spreads with
  | nil => intro l; exact forall₂_refl_of (keyRel_refl stiOnly_refl) l
  | cons p rest ih =>
    intro l
    rw [applySpreads_cons]
    refine forall₂_trans_of (keyRel_trans stiOnly_trans) ?_ (ih _)
    exact updateAssoc_forall₂_rel stiOnly_refl (fun a => stiOnly_addSti _ a) l p.1

theorem decayAtoms_stiOnly (cfg : EcanConfig) (act : List AtomId) (ids : List AtomId) :
    ∀ l : List (AtomId × Atom),
    List.Forall₂ (keyRel StiOnly) l (decayAtoms cfg act ids l) := by
  induction ids with
  | nil => intro l; exact forall₂_refl_of (keyRel_refl stiOnly_refl) l
  | cons id rest ih =>
    intro l
    rw [decayAtoms_cons]
    refine forall₂_trans_of (keyRel_trans stiOnly_trans) ?_ (ih _)
    by_cases hact : id ∈ act
    · rw [if_pos hact]; exact forall₂_refl_of (keyRel_refl stiOnly_refl) l
    · rw [if_neg hact]
      exact updateAssoc_forall₂_rel stiOnly_refl (stiOnly_decayAtom cfg) l id

theorem spread_attention_fst_atoms (s : AtomSpace) (act : List AtomId) (cfg : EcanConfig) :
    ((spread_attention s act cfg).1).atoms =
      decayAtoms cfg act (all_ids s)
        (applySpreads (collectSpreads (afterBoost s act cfg) cfg (all_ids s))
          (boostAtoms cfg act s.atoms)) := rfl

theorem spread_attention_fst_incoming (s : AtomSpace) (act : List AtomId)
    (cfg : EcanConfig) : ((spread_attention s act cfg).1).incoming = s.incoming := rfl

theorem spread_attention_stiOnly (s : AtomSpace) (act : List AtomId) (cfg : EcanConfig) :
    List.Forall₂ (keyRel StiOnly) s.atoms ((spread_attention s act cfg).1).atoms := by
  rw [spread_attention_fst_atoms]
  refine forall₂_trans_of (keyRel_trans stiOnly_trans) (boostAtoms_stiOnly cfg act s.atoms)
    (forall₂_trans_of (keyRel_trans stiOnly_trans) (applySpreads_stiOnly _ _)
      (decayAtoms_stiOnly cfg act _ _))

theorem forall₂_mem_right {α : Type} {S : α → α → Prop} {l l' : List α}
    (h : List.Forall₂ S l l') : ∀ q ∈ l', ∃ p ∈ l, S p q := by
  induction h with
  | nil => intro q hq; cases hq
  | cons hxy _ ih =>
    intro q hq
    rcases List.mem_cons.mp hq with hq | hq
    · subst hq; exact ⟨_, List.mem_cons_self _ _, hxy⟩
    · obtain ⟨p, hp, hS⟩ := ih q hq
      exact ⟨p, List.mem_cons_of_mem _ hp, hS⟩

theorem forall₂_keys {α β : Type} {R : β → β → Prop} {l l' : List (α × β)}
    (h : List.Forall₂ (keyRel R) l l') : l.map Prod.fst = l'.map Prod.fst := by
  induction h with
  | nil => rfl
  | cons hxy _ ih => simp only [List.map_cons, ih, hxy.1]

/-! ### Where phase-2 contributions can go -/

theorem spreadContrib_none {s : AtomSpace} {cfg : EcanConfig} {id : AtomId}
    (hg : s.get id = none) : spreadContrib s cfg id = [] := by
  unfold spreadContrib
  rw [hg]

theorem spreadContrib_some {s : AtomSpace} {cfg : EcanConfig} {id : AtomId} {a : Atom}
    (hg : s.get id = some a) :
    spreadContrib s cfg id =
      if a.av.sti < 1 then []
      else
        (if a.atom_type.is_link && !a.outgoing.isEmpty then
          a.outgoing.map
            (fun tgt => (tgt, a.av.sti * cfg.spread_fraction / (a.outgoing.length : ℚ)))
        else []) ++
        (let inc := get_incoming s id
         if !inc.isEmpty then
          inc.map
            (fun lk => (lk, a.av.sti * cfg.spread_fraction * 0.3 / (inc.length : ℚ)))
         else []) := by
  unfold spreadContrib
  rw [hg]

theorem spreadContrib_target {s : AtomSpace} {cfg : EcanConfig} {id : AtomId}
    {p : AtomId × ℚ} (hp : p ∈ spreadContrib s cfg id) :
    (∃ q ∈ s.atoms, p.1 ∈ q.2.outgoing) ∨ (∃ q ∈ s.incoming, p.1 ∈ q.2) := by
  cases hg : s.get id with
  | none => rw [spreadContrib_none hg] at hp; cases hp
  | some a =>
    rw [spreadContrib_some hg] at hp
    by_cases hsti : a.av.sti < 1
    · rw [if_pos hsti] at hp; cases hp
    · rw [if_neg hsti] at hp
      rcases List.mem_append.mp hp with hout | hinc
      · by_cases hcond : a.atom_type.is_link && !a.outgoing.isEmpty
        · rw [if_pos hcond] at hout
          obtain ⟨tgt, htgt, heq⟩ := List.mem_map.mp hout
          left
          refine ⟨(id, a), lookup?_mem hg, ?_⟩
          rw [← heq]
          exact htgt
        · rw [if_neg hcond] at hout; cases hout
      · simp only at hinc
        by_cases hcond : !(get_incoming s id).isEmpty
        · rw [if_pos hcond] at hinc
          obtain ⟨lk, hlk, heq⟩ := List.mem_map.mp hinc
          right
          unfold get_incoming at hlk hcond
          cases hl : lookup? s.incoming id with
          | none => rw [hl] at hcond; simp at hcond
          | some inc =>
            rw [hl] at hlk
            refine ⟨(id, inc), lookup?_mem hl, ?_⟩
            rw [← heq]
            exact hlk
        · rw [if_neg hcond] at hinc; cases hinc

theorem collectSpreads_target {s : AtomSpace} {cfg : EcanConfig} {ids : List AtomId}
    {p : AtomId × ℚ} (hp : p ∈ collectSpreads s cfg ids) :
    (∃ q ∈ s.atoms, p.1 ∈ q.2.outgoing) ∨ (∃ q ∈ s.incoming, p.1 ∈ q.2) := by
  obtain ⟨id, _, hmem⟩ := List.mem_flatMap.mp hp
  exact spreadContrib_target hmem

theorem collectSpreads_nonneg {s : AtomSpace} {cfg : EcanConfig} {ids : List AtomId}
    (hsf : 0 ≤ cfg.spread_fraction) : ∀ p ∈ collectSpreads s cfg ids, 0 ≤ p.2 := by
  intro p hp
  obtain ⟨id, _, hmem⟩ := List.mem_flatMap.mp hp
  cases hg : s.get id with
  | none => rw [spreadContrib_none hg] at hmem; cases hmem
  | some a =>
    rw [spreadContrib_some hg] at hmem
    by_cases hsti : a.av.sti < 1
    · rw [if_pos hsti] at hmem; cases hmem
    · rw [if_neg hsti] at hmem
      have ha : (0 : ℚ) ≤ a.av.sti := le_trans zero_le_one (not_lt.mp hsti)
      rcases List.mem_append.mp hmem with hout | hinc
      · by_cases hcond : a.atom_type.is_link && !a.outgoing.isEmpty
        · rw [if_pos hcond] at hout
          obtain ⟨tgt, _, heq⟩ := List.mem_map.mp hout
          rw [← heq]
          refine div_nonneg (mul_nonneg ha hsf) (Nat.cast_nonneg _)
        · rw [if_neg hcond] at hout; cases hout
      · simp only at hinc
        by_cases hcond : !(get_incoming s id).isEmpty
        · rw [if_pos hcond] at hinc
          obtain ⟨lk, _, heq⟩ := List.mem_map.mp hinc
          rw [← heq]
          refine div_nonneg (mul_nonneg (mul_nonneg ha hsf) (by norm_num)) (Nat.cast_nonneg _)
        · rw [if_neg hcond] at hinc; cases hinc

/-- An atom referenced by no link's outgoing list and no incoming-index
entry receives no phase-2 contribution. -/
theorem collectSpreads_ne_of_isolated {s : AtomSpace} {cfg : EcanConfig}
    {ids : List AtomId} {i : AtomId} (h1 : ∀ q ∈ s.atoms, i ∉ q.2.outgoing)
    (h2 : ∀ q ∈ s.incoming, i ∉ q.2) : ∀ p ∈ collectSpreads s cfg ids, p.1 ≠ i := by
  intro p hp hpi
  rcases collectSpreads_target hp with ⟨q, hq, hmem⟩ | ⟨q, hq, hmem⟩
  · exact h1 q hq (hpi ▸ hmem)
  · exact h2 q hq (hpi ▸ hmem)

/-! ### Further helper lemmas for the attention claims -/

theorem boostAtoms_nil (cfg : EcanConfig) (l : List (AtomId × Atom)) :
    boostAtoms cfg [] l = l := rfl

theorem boostAmount_eq_weight (cfg : EcanConfig) (t : AtomType) :
    boostAmount cfg t = cfg.initial_sti * typeWeight t := by
  cases t <;> simp [boostAmount, typeWeight]

theorem applySpreads_lookup_of_not_target {spreads : List (AtomId × ℚ)} {i : AtomId}
    (h : ∀ p ∈ spreads, p.1 ≠ i) : ∀ l : List (AtomId × Atom),
    lookup? (applySpreads spreads l) i = lookup? l i := by
  induction spreads with
  | nil => intro l; rfl
  | cons p rest ih =>
    intro l
    rw [applySpreads_cons]
    rw [ih (fun q hq => h q (List.mem_cons_of_mem p hq)) _]
    exact lookup?_updateAssoc_ne l _
      (fun hip => (h p (List.mem_cons_self p rest)) hip.symm)

theorem decayAtoms_lookup_of_activated {cfg : EcanConfig} {act : List AtomId}
    {ids : List AtomId} {i : AtomId} (h : i ∈ act) : ∀ l : List (AtomId × Atom),
    lookup? (decayAtoms cfg act ids l) i = lookup? l i := by
  induction ids with
  | nil => intro l; rfl
  | cons id rest ih =>
    intro l
    rw [decayAtoms_cons, ih _]
    by_cases hact : id ∈ act
    · rw [if_pos hact]
    · rw [if_neg hact]
      have hne : i ≠ id := fun hh => hact (hh ▸ h)
      exact lookup?_updateAssoc_ne l _ hne

theorem all_ids_nodup {s : AtomSpace} (h : (s.atoms.map Prod.fst).Nodup) :
    (all_ids s).Nodup :=
  (List.Perm.nodup_iff (insertionSort_perm _ _)).mpr h

theorem mem_all_ids_of_lookup {s : AtomSpace} {i : AtomId} {a : Atom}
    (h : lookup? s.atoms i = some a) : i ∈ all_ids s := by
  refine (mem_insertionSort _ _ i).mpr ?_
  exact List.mem_map.mpr ⟨(i, a), lookup?_mem h, rfl⟩

/-- Transport "no stored atom's outgoing list mentions `i`" across a
phase that only changes sti values. -/
theorem outgoing_clear_transport {l l' : List (AtomId × Atom)} {i : AtomId}
    (hF : List.Forall₂ (keyRel StiOnly) l l') (h1 : ∀ q ∈ l, i ∉ q.2.outgoing) :
    ∀ q ∈ l', i ∉ q.2.outgoing := by
  intro q hq
  obtain ⟨p, hp, hk⟩ := forall₂_mem_right hF q hq
  rw [hk.2.2.2.2.1]
  exact h1 p hp

/-! ### Insertion lemmas -/

theorem lookup?_singleton {α β : Type} [DecidableEq α] (k : α) (v : β) :
    lookup? [(k, v)] k = some v := by
  simp [lookup?]

theorem add_node_found {s : AtomSpace} {t : AtomType} {name : String} {id : AtomId}
    (tv : TruthValue) (h : lookup? s.nodeIndex (t, name) = some id) :
    add_node s t name tv =
      ({ s with atoms := updateAssoc s.atoms id (mergeTv tv) }, id, false) := by
  unfold add_node
  rw [h]

theorem add_node_new {s : AtomSpace} {t : AtomType} {name : String} (tv : TruthValue)
    (h : lookup? s.nodeIndex (t, name) = none) :
    add_node s t name tv =
      ({ s with
          atoms := s.atoms ++ [(s.nextId, Atom.new_node s.nextId t name tv)]
          nextId := s.nextId + 1
          nodeIndex := s.nodeIndex ++ [((t, name), s.nextId)]
          typeIndex := pushEntry s.typeIndex t s.nextId },
        s.nextId, true) := by
  unfold add_node
  rw [h]

theorem add_link_found {s : AtomSpace} {t : AtomType} {outgoing : List AtomId}
    {id : AtomId} (tv : TruthValue) (h : lookup? s.linkIndex (t, outgoing) = some id) :
    add_link s t outgoing tv =
      ({ s with atoms := updateAssoc s.atoms id (mergeTv tv) }, id, false) := by
  unfold add_link
  rw [h]

theorem add_link_new {s : AtomSpace} {t : AtomType} {outgoing : List AtomId}
    (tv : TruthValue) (h : lookup? s.linkIndex (t, outgoing) = none) :
    add_link s t outgoing tv =
      ({ s with
          atoms := s.atoms ++ [(s.nextId, Atom.new_link s.nextId t outgoing tv)]
          nextId := s.nextId + 1
          linkIndex := s.linkIndex ++ [((t, outgoing), s.nextId)]
          typeIndex := pushEntry s.typeIndex t s.nextId
          incoming := outgoing.foldl (fun m target => pushEntry m target s.nextId)
            s.incoming },
        s.nextId, true) := by
  unfold add_link
  rw [h]

theorem mergeTv_cases (tv : TruthValue) (a : Atom) :
    (tv.confidence > a.tv.confidence → (mergeTv tv a).tv = tv) ∧
      (¬tv.confidence > a.tv.confidence → (mergeTv tv a).tv = a.tv) := by
  unfold mergeTv
  by_cases h : tv.confidence > a.tv.confidence
  · rw [if_pos h]
    exact ⟨fun _ => rfl, fun hn => absurd h hn⟩
  · rw [if_neg h]
    exact ⟨fun hp => absurd hp h, fun _ => rfl⟩

theorem lookup?_atoms_nextId {s : AtomSpace} (hwf : wf s) :
    lookup? s.atoms s.nextId = none :=
  lookup?_eq_none (fun p hp => Nat.ne_of_lt (hwf.2.2.1 p hp))

/-- Re-inserting a node key that the index already resolves: same id,
`is_new = false`, unchanged atom count, confidence-max merge. -/
theorem add_node_idem {s : AtomSpace} (hwf : wf s) (t : AtomType) (name : String)
    (tv1 tv2 : TruthValue) :
    (add_node (add_node s t name tv1).1 t name tv2).2.1 = (add_node s t name tv1).2.1 ∧
    (add_node (add_node s t name tv1).1 t name tv2).2.2 = false ∧
    (add_node (add_node s t name tv1).1 t name tv2).1.size ≤ s.size + 1 ∧
    ∃ a1 a2,
      (add_node s t name tv1).1.get (add_node s t name tv1).2.1 = some a1 ∧
      (add_node (add_node s t name tv1).1 t name tv2).1.get
          (add_node s t name tv1).2.1 = some a2 ∧
      (tv2.confidence > a1.tv.confidence → a2.tv = tv2) ∧
      (¬tv2.confidence > a1.tv.confidence → a2.tv = a1.tv) := by
  cases h0 : lookup? s.nodeIndex (t, name) with
  | some id =>
    obtain ⟨a0, ha0⟩ := Option.isSome_iff_exists.mp
      (hwf.2.2.2.2.2.2.2.1 ((t, name), id) (lookup?_mem h0))
    rw [add_node_found tv1 h0]
    rw [add_node_found tv2 (s := { s with atoms := updateAssoc s.atoms id (mergeTv tv1) })
      (by exact h0)]
    refine ⟨rfl, rfl, ?_, ?_⟩
    · show (updateAssoc (updateAssoc s.atoms id (mergeTv tv1)) id (mergeTv tv2)).length ≤ _
      rw [updateAssoc_length, updateAssoc_length]
      exact Nat.le_succ _
    · refine ⟨mergeTv tv1 a0, mergeTv tv2 (mergeTv tv1 a0), ?_, ?_, ?_⟩
      · show lookup? (updateAssoc s.atoms id (mergeTv tv1)) id = _
        rw [lookup?_updateAssoc_self, ha0]
        rfl
      · show lookup? (updateAssoc (updateAssoc s.atoms id (mergeTv tv1)) id
          (mergeTv tv2)) id = _
        rw [lookup?_updateAssoc_self, lookup?_updateAssoc_self, ha0]
        rfl
      · exact mergeTv_cases tv2 (mergeTv tv1 a0)
  | none =>
    rw [add_node_new tv1 h0]
    have h1 : lookup? (s.nodeIndex ++ [((t, name), s.nextId)]) (t, name) =
        some s.nextId := by
      rw [lookup?_append_right _ h0]
      exact lookup?_singleton _ _
    rw [add_node_found tv2 h1]
    refine ⟨rfl, rfl, ?_, ?_⟩
    · show (updateAssoc (s.atoms ++ [(s.nextId, Atom.new_node s.nextId t name tv1)])
          s.nextId (mergeTv tv2)).length ≤ _
      rw [updateAssoc_length, List.length_append]
      exact Nat.le_refl _
    · have hnew : lookup? (s.atoms ++ [(s.nextId, Atom.new_node s.nextId t name tv1)])
          s.nextId = some (Atom.new_node s.nextId t name tv1) := by
        rw [lookup?_append_right _ (lookup?_atoms_nextId hwf)]
        exact lookup?_singleton _ _
      refine ⟨Atom.new_node s.nextId t name tv1,
        mergeTv tv2 (Atom.new_node s.nextId t name tv1), hnew, ?_, ?_⟩
      · show lookup? (updateAssoc _ s.nextId (mergeTv tv2)) s.nextId = _
        rw [lookup?_updateAssoc_self, hnew]
        rfl
      · exact mergeTv_cases tv2 _

/-- Re-inserting a link key that the index already resolves: same id,
`is_new = false`, unchanged atom count, confidence-max merge. -/
theorem add_link_idem {s : AtomSpace} (hwf : wf s) (t : AtomType)
    (outgoing : List AtomId) (tv1 tv2 : TruthValue) :
    (add_link (add_link s t outgoing tv1).1 t outgoing tv2).2.1 =
        (add_link s t outgoing tv1).2.1 ∧
    (add_link (add_link s t outgoing tv1).1 t outgoing tv2).2.2 = false ∧
    (add_link (add_link s t outgoing tv1).1 t outgoing tv2).1.size ≤ s.size + 1 ∧
    ∃ a1 a2,
      (add_link s t outgoing tv1).1.get (add_link s t outgoing tv1).2.1 = some a1 ∧
      (add_link (add_link s t outgoing tv1).1 t outgoing tv2).1.get
          (add_link s t outgoing tv1).2.1 = some a2 ∧
      (tv2.confidence > a1.tv.confidence → a2.tv = tv2) ∧
      (¬tv2.confidence > a1.tv.confidence → a2.tv = a1.tv) := by
  cases h0 : lookup? s.linkIndex (t, outgoing) with
  | some id =>
    obtain ⟨a0, ha0⟩ := Option.isSome_iff_exists.mp
      (hwf.2.2.2.2.2.2.2.2 ((t, outgoing), id) (lookup?_mem h0))
    rw [add_link_found tv1 h0]
    rw [add_link_found tv2
      (s := { s with atoms := updateAssoc s.atoms id (mergeTv tv1) }) (by exact h0)]
    refine ⟨rfl, rfl, ?_, ?_⟩
    · show (updateAssoc (updateAssoc s.atoms id (mergeTv tv1)) id (mergeTv tv2)).length ≤ _
      rw [updateAssoc_length, updateAssoc_length]
      exact Nat.le_succ _
    · refine ⟨mergeTv tv1 a0, mergeTv tv2 (mergeTv tv1 a0), ?_, ?_, ?_⟩
      · show lookup? (updateAssoc s.atoms id (mergeTv tv1)) id = _
        rw [lookup?_updateAssoc_self, ha0]
        rfl
      · show lookup? (updateAssoc (updateAssoc s.atoms id (mergeTv tv1)) id
          (mergeTv tv2)) id = _
        rw [lookup?_updateAssoc_self, lookup?_updateAssoc_self, ha0]
        rfl
      · exact mergeTv_cases tv2 (mergeTv tv1 a0)
  | none =>
    rw [add_link_new tv1 h0]
    have h1 : lookup? (s.linkIndex ++ [((t, outgoing), s.nextId)]) (t, outgoing) =
        some s.nextId := by
      rw [lookup?_append_right _ h0]
      exact lookup?_singleton _ _
    rw [add_link_found tv2 h1]
    refine ⟨rfl, rfl, ?_, ?_⟩
    · show (updateAssoc (s.atoms ++ [(s.nextId, Atom.new_link s.nextId t outgoing tv1)])
          s.nextId (mergeTv tv2)).length ≤ _
      rw [updateAssoc_length, List.length_append]
      exact Nat.le_refl _
    · have hnew : lookup?
          (s.atoms ++ [(s.nextId, Atom.new_link s.nextId t outgoing tv1)]) s.nextId =
          some (Atom.new_link s.nextId t outgoing tv1) := by
        rw [lookup?_append_right _ (lookup?_atoms_nextId hwf)]
        exact lookup?_singleton _ _
      refine ⟨Atom.new_link s.nextId t outgoing tv1,
        mergeTv tv2 (Atom.new_link s.nextId t outgoing tv1), hnew, ?_, ?_⟩
      · show lookup? (updateAssoc _ s.nextId (mergeTv tv2)) s.nextId = _
        rw [lookup?_updateAssoc_self, hnew]
        rfl
      · exact mergeTv_cases tv2 _

/-! ### Index growth lemmas -/

theorem lookup?_append_isSome {α β : Type} [DecidableEq α] {l : List (α × β)} {k : α}
    (l2 : List (α × β)) (h : (lookup? l k).isSome = true) :
    (lookup? (l ++ l2) k).isSome = true := by
  obtain ⟨v, hv⟩ := Option.isSome_iff_exists.mp h
  rw [lookup?_append_left l2 hv]
  rfl

theorem pushEntry_mem_char {α β : Type} [DecidableEq α] {k : α} {x : β} :
    ∀ {l : List (α × List β)}, ∀ p ∈ pushEntry l k x, ∀ i ∈ p.2,
      i = x ∨ ∃ q ∈ l, i ∈ q.2 := by
  intro l
  induction l with
  | nil =>
    intro p hp i hi
    simp only [pushEntry, List.mem_singleton] at hp
    subst hp
    simp only [List.mem_singleton] at hi
    exact Or.inl hi
  | cons hd tl ih =>
    intro p hp i hi
    simp only [pushEntry] at hp
    by_cases hk : hd.1 = k
    · rw [if_pos hk] at hp
      rcases List.mem_cons.mp hp with hp | hp
      · subst hp
        rcases List.mem_append.mp hi with hi | hi
        · exact Or.inr ⟨hd, List.mem_cons_self hd tl, hi⟩
        · exact Or.inl (List.mem_singleton.mp hi)
      · exact Or.inr ⟨p, List.mem_cons_of_mem hd hp, hi⟩
    · rw [if_neg hk] at hp
      rcases List.mem_cons.mp hp with hp | hp
      · subst hp
        exact Or.inr ⟨p, List.mem_cons_self p tl, hi⟩
      · rcases ih p hp i hi with h | ⟨q, hq, hiq⟩
        · exact Or.inl h
        · exact Or.inr ⟨q, List.mem_cons_of_mem hd hq, hiq⟩

theorem foldl_pushEntry_mem_char {α β : Type} [DecidableEq α] (x : β) :
    ∀ (keys : List α) (m : List (α × List β)),
      ∀ p ∈ keys.foldl (fun acc k => pushEntry acc k x) m, ∀ i ∈ p.2,
        i = x ∨ ∃ q ∈ m, i ∈ q.2 := by
  intro keys
  induction keys with
  | nil => intro m p hp i hi; exact Or.inr ⟨p, hp, hi⟩
  | cons k ks ih =>
    intro m p hp i hi
    rcases ih (pushEntry m k x) p hp i hi with h | ⟨q, hq, hiq⟩
    · exact Or.inl h
    · exact pushEntry_mem_char q hq i hiq

theorem pushEntry_mem_persist {α β : Type} [DecidableEq α] {l : List (α × List β)}
    {j k : α} {x i : β} (h : i ∈ (lookup? l j).getD []) :
    i ∈ (lookup? (pushEntry l k x) j).getD [] := by
  by_cases hjk : j = k
  · subst hjk
    rw [lookup?_pushEntry_self]
    simp only [Option.getD_some]
    exact List.mem_append_left _ h
  · rw [lookup?_pushEntry_ne l x hjk]
    exact h

theorem foldl_pushEntry_mem_persist {α β : Type} [DecidableEq α] {j : α} {x i : β} :
    ∀ (keys : List α) (m : List (α × List β)), i ∈ (lookup? m j).getD [] →
      i ∈ (lookup? (keys.foldl (fun acc k => pushEntry acc k x) m) j).getD [] := by
  intro keys
  induction keys with
  | nil => intro m h; exact h
  | cons k ks ih => intro m h; exact ih (pushEntry m k x) (pushEntry_mem_persist h)

theorem updateAssoc_keys {α β : Type} [DecidableEq α] (l : List (α × β)) (k : α)
    (f : β → β) : (updateAssoc l k f).map Prod.fst = l.map Prod.fst :=
  (forall₂_keys (updateAssoc_forall₂ l k f)).symm

/-! ### Well-formedness preservation -/

theorem wf_empty : wf AtomSpace.empty := by decide

theorem wf_update_atoms {s : AtomSpace} (hwf : wf s) (k : AtomId) (f : Atom → Atom) :
    wf { s with atoms := updateAssoc s.atoms k f } := by
  obtain ⟨h1, h2, h3, h4, h5, h6, h7, h8, h9⟩ := hwf
  refine ⟨h1, ?_, ?_, h4, h5, h6, h7, ?_, ?_⟩
  · rw [updateAssoc_keys]
    exact h2
  · intro p hp
    obtain ⟨q, hq, hk⟩ := forall₂_mem_right (updateAssoc_forall₂ s.atoms k f) p hp
    rw [← hk.1]
    exact h3 q hq
  · intro p hp
    rw [lookup?_update_isSome]
    exact h8 p hp
  · intro p hp
    rw [lookup?_update_isSome]
    exact h9 p hp

theorem nodup_keys_append {s : AtomSpace} (hwf : wf s) (a : Atom) :
    ((s.atoms ++ [(s.nextId, a)]).map Prod.fst).Nodup := by
  obtain ⟨h1, h2, h3, _⟩ := hwf
  rw [List.map_append]
  refine List.nodup_append.mpr ⟨h2, List.nodup_singleton _, ?_⟩
  intro x hx hx2
  simp only [List.map_cons, List.map_nil, List.mem_singleton] at hx2
  obtain ⟨p, hp, hpx⟩ := List.mem_map.mp hx
  exact absurd (hpx.trans hx2 ▸ h3 p hp) (lt_irrefl s.nextId)

theorem add_node_wf {s : AtomSpace} (hwf : wf s) (t : AtomType) (name : String)
    (tv : TruthValue) : wf (add_node s t name tv).1 := by
  cases h0 : lookup? s.nodeIndex (t, name) with
  | some id =>
    rw [add_node_found tv h0]
    exact wf_update_atoms hwf id (mergeTv tv)
  | none =>
    rw [add_node_new tv h0]
    obtain ⟨h1, h2, h3, h4, h5, h6, h7, h8, h9⟩ := hwf
    refine ⟨Nat.le_succ_of_le h1, nodup_keys_append ⟨h1, h2, h3, h4, h5, h6, h7, h8, h9⟩ _,
      ?_, ?_, ?_, ?_, ?_, ?_, ?_⟩
    · intro p hp
      rcases List.mem_append.mp hp with hp | hp
      · exact Nat.lt_succ_of_lt (h3 p hp)
      · simp only [List.mem_singleton] at hp
        rw [hp]
        exact Nat.lt_succ_self _
    · intro p hp
      rcases List.mem_append.mp hp with hp | hp
      · exact Nat.lt_succ_of_lt (h4 p hp)
      · simp only [List.mem_singleton] at hp
        rw [hp]
        exact Nat.lt_succ_self _
    · intro p hp
      exact Nat.lt_succ_of_lt (h5 p hp)
    · intro p hp i hi
      rcases pushEntry_mem_char p hp i hi with h | ⟨q, hq, hiq⟩
      · rw [h]
        exact Nat.lt_succ_self _
      · exact Nat.lt_succ_of_lt (h6 q hq i hiq)
    · intro p hp i hi
      exact Nat.lt_succ_of_lt (h7 p hp i hi)
    · intro p hp
      rcases List.mem_append.mp hp with hp | hp
      · exact lookup?_append_isSome _ (h8 p hp)
      · simp only [List.mem_singleton] at hp
        rw [hp]
        show (lookup? (s.atoms ++ [(s.nextId, _)]) s.nextId).isSome = true
        rw [lookup?_append_right _ (lookup?_atoms_nextId ⟨h1, h2, h3, h4, h5, h6, h7, h8, h9⟩),
          lookup?_singleton]
        rfl
    · intro p hp
      exact lookup?_append_isSome _ (h9 p hp)

theorem add_link_wf {s : AtomSpace} (hwf : wf s) (t : AtomType) (outgoing : List AtomId)
    (tv : TruthValue) : wf (add_link s t outgoing tv).1 := by
  cases h0 : lookup? s.linkIndex (t, outgoing) with
  | some id =>
    rw [add_link_found tv h0]
    exact wf_update_atoms hwf id (mergeTv tv)
  | none =>
    rw [add_link_new tv h0]
    obtain ⟨h1, h2, h3, h4, h5, h6, h7, h8, h9⟩ := hwf
    refine ⟨Nat.le_succ_of_le h1, nodup_keys_append ⟨h1, h2, h3, h4, h5, h6, h7, h8, h9⟩ _,
      ?_, ?_, ?_, ?_, ?_, ?_, ?_⟩
    · intro p hp
      rcases List.mem_append.mp hp with hp | hp
      · exact Nat.lt_succ_of_lt (h3 p hp)
      · simp only [List.mem_singleton] at hp
        rw [hp]
        exact Nat.lt_succ_self _
    · intro p hp
      exact Nat.lt_succ_of_lt (h4 p hp)
    · intro p hp
      rcases List.mem_append.mp hp with hp | hp
      · exact Nat.lt_succ_of_lt (h5 p hp)
      · simp only [List.mem_singleton] at hp
        rw [hp]
        exact Nat.lt_succ_self _
    · intro p hp i hi
      rcases pushEntry_mem_char p hp i hi with h | ⟨q, hq, hiq⟩
      · rw [h]
        exact Nat.lt_succ_self _
      · exact Nat.lt_succ_of_lt (h6 q hq i hiq)
    · intro p hp i hi
      rcases foldl_pushEntry_mem_char s.nextId outgoing s.incoming p hp i hi with
        h | ⟨q, hq, hiq⟩
      · rw [h]
        exact Nat.lt_succ_self _
      · exact Nat.lt_succ_of_lt (h7 q hq i hiq)
    · intro p hp
      exact lookup?_append_isSome _ (h8 p hp)
    · intro p hp
      rcases List.mem_append.mp hp with hp | hp
      · exact lookup?_append_isSome _ (h9 p hp)
      · simp only [List.mem_singleton] at hp
        rw [hp]
        show (lookup? (s.atoms ++ [(s.nextId, _)]) s.nextId).isSome = true
        rw [lookup?_append_right _ (lookup?_atoms_nextId ⟨h1, h2, h3, h4, h5, h6, h7, h8, h9⟩),
          lookup?_singleton]
        rfl

/-! ### Per-operation preservation lemmas -/

theorem mergeTv_mergedInto (tv : TruthValue) (a : Atom) : MergedInto tv a (mergeTv tv a) := by
  unfold mergeTv MergedInto
  by_cases h : tv.confidence > a.tv.confidence
  · rw [if_pos h]
    exact Or.inr ⟨rfl, h⟩
  · rw [if_neg h]
    exact Or.inl rfl

theorem mergedInto_fields {tv : TruthValue} {a b : Atom} (h : MergedInto tv a b) :
    b.id = a.id ∧ b.atom_type = a.atom_type ∧ b.name = a.name ∧
      b.outgoing = a.outgoing ∧ b.av = a.av := by
  rcases h with h | ⟨h, _⟩ <;> rw [h] <;> exact ⟨rfl, rfl, rfl, rfl, rfl⟩

theorem mergedInto_confLe {tv : TruthValue} {a b : Atom} (h : MergedInto tv a b) :
    ConfLe a b := by
  rcases h with h | ⟨h, hconf⟩
  · rw [h]
    exact ⟨rfl, rfl, rfl, rfl, rfl, le_refl _⟩
  · rw [h]
    exact ⟨rfl, rfl, rfl, rfl, rfl, le_of_lt hconf⟩

theorem confLe_refl : Reflexive ConfLe := fun _ => ⟨rfl, rfl, rfl, rfl, rfl, le_refl _⟩

theorem confLe_trans : Transitive ConfLe := by
  intro a b c h1 h2
  exact ⟨h2.1.trans h1.1, h2.2.1.trans h1.2.1, h2.2.2.1.trans h1.2.2.1,
    h2.2.2.2.1.trans h1.2.2.2.1, h2.2.2.2.2.1.trans h1.2.2.2.2.1,
    le_trans h1.2.2.2.2.2 h2.2.2.2.2.2⟩

theorem add_node_merged (s : AtomSpace) (t : AtomType) (name : String) (tv : TruthValue) :
    ∀ p ∈ s.atoms, ∃ q ∈ (add_node s t name tv).1.atoms,
      p.1 = q.1 ∧ MergedInto tv p.2 q.2 := by
  intro p hp
  cases h0 : lookup? s.nodeIndex (t, name) with
  | some id =>
    rw [add_node_found tv h0]
    obtain ⟨q, hq, hk⟩ := forall₂_mem (updateAssoc_forall₂ s.atoms id (mergeTv tv)) p hp
    refine ⟨q, hq, hk.1, ?_⟩
    rcases hk.2 with h | h
    · rw [h]
      exact Or.inl rfl
    · rw [h]
      exact mergeTv_mergedInto tv p.2
  | none =>
    rw [add_node_new tv h0]
    exact ⟨p, List.mem_append_left _ hp, rfl, Or.inl rfl⟩

theorem add_link_merged (s : AtomSpace) (t : AtomType) (outgoing : List AtomId)
    (tv : TruthValue) : ∀ p ∈ s.atoms, ∃ q ∈ (add_link s t outgoing tv).1.atoms,
      p.1 = q.1 ∧ MergedInto tv p.2 q.2 := by
  intro p hp
  cases h0 : lookup? s.linkIndex (t, outgoing) with
  | some id =>
    rw [add_link_found tv h0]
    obtain ⟨q, hq, hk⟩ := forall₂_mem (updateAssoc_forall₂ s.atoms id (mergeTv tv)) p hp
    refine ⟨q, hq, hk.1, ?_⟩
    rcases hk.2 with h | h
    · rw [h]
      exact Or.inl rfl
    · rw [h]
      exact mergeTv_mergedInto tv p.2
  | none =>
    rw [add_link_new tv h0]
    exact ⟨p, List.mem_append_left _ hp, rfl, Or.inl rfl⟩

theorem add_node_nodeIndex_persist {s : AtomSpace} (t : AtomType) (name : String)
    (tv : TruthValue) {k : AtomType × String} {v : AtomId}
    (h : lookup? s.nodeIndex k = some v) :
    lookup? (add_node s t name tv).1.nodeIndex k = some v := by
  cases h0 : lookup? s.nodeIndex (t, name) with
  | some id =>
    rw [add_node_found tv h0]
    exact h
  | none =>
    rw [add_node_new tv h0]
    exact lookup?_append_left _ h

theorem add_node_linkIndex_eq (s : AtomSpace) (t : AtomType) (name : String)
    (tv : TruthValue) : (add_node s t name tv).1.linkIndex = s.linkIndex := by
  cases h0 : lookup? s.nodeIndex (t, name) with
  | some id => rw [add_node_found tv h0]
  | none => rw [add_node_new tv h0]

theorem add_node_incoming_eq (s : AtomSpace) (t : AtomType) (name : String)
    (tv : TruthValue) : (add_node s t name tv).1.incoming = s.incoming := by
  cases h0 : lookup? s.nodeIndex (t, name) with
  | some id => rw [add_node_found tv h0]
  | none => rw [add_node_new tv h0]

theorem add_node_type_persist {s : AtomSpace} (t : AtomType) (name : String)
    (tv : TruthValue) {ty : AtomType} {i : AtomId} (h : i ∈ get_by_type s ty) :
    i ∈ get_by_type (add_node s t name tv).1 ty := by
  cases h0 : lookup? s.nodeIndex (t, name) with
  | some id =>
    rw [add_node_found tv h0]
    exact h
  | none =>
    rw [add_node_new tv h0]
    exact pushEntry_mem_persist h

theorem add_link_nodeIndex_eq (s : AtomSpace) (t : AtomType) (outgoing : List AtomId)
    (tv : TruthValue) : (add_link s t outgoing tv).1.nodeIndex = s.nodeIndex := by
  cases h0 : lookup? s.linkIndex (t, outgoing) with
  | some id => rw [add_link_found tv h0]
  | none => rw [add_link_new tv h0]

theorem add_link_linkIndex_persist {s : AtomSpace} (t : AtomType)
    (outgoing : List AtomId) (tv : TruthValue) {k : AtomType × List AtomId} {v : AtomId}
    (h : lookup? s.linkIndex k = some v) :
    lookup? (add_link s t outgoing tv).1.linkIndex k = some v := by
  cases h0 : lookup? s.linkIndex (t, outgoing) with
  | some id =>
    rw [add_link_found tv h0]
    exact h
  | none =>
    rw [add_link_new tv h0]
    exact lookup?_append_left _ h

theorem add_link_type_persist {s : AtomSpace} (t : AtomType) (outgoing : List AtomId)
    (tv : TruthValue) {ty : AtomType} {i : AtomId} (h : i ∈ get_by_type s ty) :
    i ∈ get_by_type (add_link s t outgoing tv).1 ty := by
  cases h0 : lookup? s.linkIndex (t, outgoing) with
  | some id =>
    rw [add_link_found tv h0]
    exact h
  | none =>
    rw [add_link_new tv h0]
    exact pushEntry_mem_persist h

theorem add_link_incoming_persist {s : AtomSpace} (t : AtomType)
    (outgoing : List AtomId) (tv : TruthValue) {j i : AtomId}
    (h : i ∈ get_incoming s j) : i ∈ get_incoming (add_link s t outgoing tv).1 j := by
  cases h0 : lookup? s.linkIndex (t, outgoing) with
  | some id =>
    rw [add_link_found tv h0]
    exact h
  | none =>
    rw [add_link_new tv h0]
    exact foldl_pushEntry_mem_persist outgoing s.incoming h

theorem add_node_preserves {s : AtomSpace} (hwf : wf s) (t : AtomType) (name : String)
    (tv : TruthValue) : InsertPreserves s (add_node s t name tv).1
      (add_node s t name tv).2.1 (add_node s t name tv).2.2 := by
  refine ⟨add_node_wf hwf t name tv, ?_, ?_, ?_, ?_, ?_, ?_, ?_, ?_⟩
  · cases h0 : lookup? s.nodeIndex (t, name) with
    | some id => rw [add_node_found tv h0]
    | none =>
      rw [add_node_new tv h0]
      exact Nat.le_succ _
  · intro p hp
    obtain ⟨q, hq, hk, hm⟩ := add_node_merged s t name tv p hp
    obtain ⟨_, h2, h3, h4, _⟩ := mergedInto_fields hm
    exact ⟨q, hq, hk, h2, h3, h4⟩
  · intro k v h
    exact add_node_nodeIndex_persist t name tv h
  · intro k v h
    rw [add_node_linkIndex_eq]
    exact h
  · intro ty i h
    exact add_node_type_persist t name tv h
  · intro j i h
    show i ∈ (lookup? (add_node s t name tv).1.incoming j).getD []
    rw [add_node_incoming_eq]
    exact h
  · intro hnew
    cases h0 : lookup? s.nodeIndex (t, name) with
    | some id =>
      rw [add_node_found tv h0] at hnew
      cases hnew
    | none =>
      rw [add_node_new tv h0]
      exact ⟨rfl, rfl, fun p hp => Nat.ne_of_lt (hwf.2.2.1 p hp)⟩
  · intro hold
    cases h0 : lookup? s.nodeIndex (t, name) with
    | some id => rw [add_node_found tv h0]
    | none =>
      rw [add_node_new tv h0] at hold
      cases hold

theorem add_link_preserves {s : AtomSpace} (hwf : wf s) (t : AtomType)
    (outgoing : List AtomId) (tv : TruthValue) :
    InsertPreserves s (add_link s t outgoing tv).1
      (add_link s t outgoing tv).2.1 (add_link s t outgoing tv).2.2 := by
  refine ⟨add_link_wf hwf t outgoing tv, ?_, ?_, ?_, ?_, ?_, ?_, ?_, ?_⟩
  · cases h0 : lookup? s.linkIndex (t, outgoing) with
    | some id => rw [add_link_found tv h0]
    | none =>
      rw [add_link_new tv h0]
      exact Nat.le_succ _
  · intro p hp
    obtain ⟨q, hq, hk, hm⟩ := add_link_merged s t outgoing tv p hp
    obtain ⟨_, h2, h3, h4, _⟩ := mergedInto_fields hm
    exact ⟨q, hq, hk, h2, h3, h4⟩
  · intro k v h
    rw [add_link_nodeIndex_eq]
    exact h
  · intro k v h
    exact add_link_linkIndex_persist t outgoing tv h
  · intro ty i h
    exact add_link_type_persist t outgoing tv h
  · intro j i h
    exact add_link_incoming_persist t outgoing tv h
  · intro hnew
    cases h0 : lookup? s.linkIndex (t, outgoing) with
    | some id =>
      rw [add_link_found tv h0] at hnew
      cases hnew
    | none =>
      rw [add_link_new tv h0]
      exact ⟨rfl, rfl, fun p hp => Nat.ne_of_lt (hwf.2.2.1 p hp)⟩
  · intro hold
    cases h0 : lookup? s.linkIndex (t, outgoing) with
    | some id => rw [add_link_found tv h0]
    | none =>
      rw [add_link_new tv h0] at hold
      cases hold

/-! ### Preservation through the forward chainer -/

theorem add_link_confLe (s : AtomSpace) (t : AtomType) (outgoing : List AtomId)
    (tv : TruthValue) : StorePresConf s (add_link s t outgoing tv).1 := by
  intro p hp
  obtain ⟨q, hq, hk, hm⟩ := add_link_merged s t outgoing tv p hp
  exact ⟨q, hq, hk, mergedInto_confLe hm⟩

theorem storePresConf_refl (s : AtomSpace) : StorePresConf s s :=
  fun p hp => ⟨p, hp, rfl, confLe_refl p.2⟩

theorem storePresConf_trans {s1 s2 s3 : AtomSpace} (h1 : StorePresConf s1 s2)
    (h2 : StorePresConf s2 s3) : StorePresConf s1 s3 := by
  intro p hp
  obtain ⟨q, hq, hk, hc⟩ := h1 p hp
  obtain ⟨r, hr, hk2, hc2⟩ := h2 q hq
  exact ⟨r, hr, hk.trans hk2, confLe_trans hc hc2⟩

theorem dedMatStep_fst (acc : AtomSpace × List Inference) (cand : DedCand) :
    (dedMatStep acc cand).1 =
      (add_link acc.1 .InheritanceLink [cand.1, cand.2.1] cand.2.2.1).1 := by
  rcases cand with ⟨a, c, tv, ab_id, bc_id⟩
  unfold dedMatStep
  dsimp only
  split <;> rfl

theorem dedMaterialize_confLe (s : AtomSpace) (cands : List DedCand) :
    StorePresConf s (dedMaterialize s cands).1 := by
  have h := foldl_preserve (fun acc : AtomSpace × List Inference => StorePresConf s acc.1)
    dedMatStep cands
    (fun acc cand _ hP => by
      show StorePresConf s (dedMatStep acc cand).1
      rw [dedMatStep_fst]
      exact storePresConf_trans hP (add_link_confLe acc.1 _ _ _))
    cands (fun y hy => hy) (s, []) (storePresConf_refl s)
  exact h

theorem deduction_step_confLe (s : AtomSpace) : StorePresConf s (deduction_step s).1 :=
  dedMaterialize_confLe s _

theorem forward_chain_confLe (d : ℕ) : ∀ s : AtomSpace,
    StorePresConf s (forward_chain s d).1 := by
  induction d with
  | zero => intro s; exact storePresConf_refl s
  | succ d ih =>
    intro s
    show StorePresConf s (if (deduction_step s).2.isEmpty then ((deduction_step s).1, [])
      else ((forward_chain (deduction_step s).1 d).1,
        (deduction_step s).2 ++ (forward_chain (deduction_step s).1 d).2)).1
    by_cases h : (deduction_step s).2.isEmpty
    · rw [if_pos h]
      exact deduction_step_confLe s
    · rw [if_neg h]
      exact storePresConf_trans (deduction_step_confLe s) (ih (deduction_step s).1)

/-! ### Truth-value validity and orphan freedom -/

theorem new_tv_valid (s c : ℚ) : (TruthValue.new s c).is_valid = true := by
  unfold TruthValue.new TruthValue.is_valid
  rw [decide_eq_true_eq]
  exact ⟨le_max_left _ _, max_le (by norm_num) (min_le_left _ _),
    le_max_left _ _, max_le (by norm_num) (min_le_left _ _)⟩

theorem mergeTv_valid {tv : TruthValue} {a : Atom} (h1 : a.tv.is_valid = true)
    (h2 : tv.is_valid = true) : (mergeTv tv a).tv.is_valid = true := by
  unfold mergeTv
  by_cases h : tv.confidence > a.tv.confidence
  · rw [if_pos h]
    exact h2
  · rw [if_neg h]
    exact h1

theorem add_node_tvsValid {s : AtomSpace} {tv : TruthValue} (hs : TVsValid s)
    (htv : tv.is_valid = true) (t : AtomType) (name : String) :
    TVsValid (add_node s t name tv).1 := by
  intro p hp
  cases h0 : lookup? s.nodeIndex (t, name) with
  | some id =>
    rw [add_node_found tv h0] at hp
    obtain ⟨q, hq, hk⟩ := forall₂_mem_right (updateAssoc_forall₂ s.atoms id (mergeTv tv)) p hp
    rcases hk.2 with h | h
    · rw [h]
      exact hs q hq
    · rw [h]
      exact mergeTv_valid (hs q hq) htv
  | none =>
    rw [add_node_new tv h0] at hp
    rcases List.mem_append.mp hp with hp | hp
    · exact hs p hp
    · simp only [List.mem_singleton] at hp
      rw [hp]
      exact htv

theorem add_link_tvsValid {s : AtomSpace} {tv : TruthValue} (hs : TVsValid s)
    (htv : tv.is_valid = true) (t : AtomType) (outgoing : List AtomId) :
    TVsValid (add_link s t outgoing tv).1 := by
  intro p hp
  cases h0 : lookup? s.linkIndex (t, outgoing) with
  | some id =>
    rw [add_link_found tv h0] at hp
    obtain ⟨q, hq, hk⟩ := forall₂_mem_right (updateAssoc_forall₂ s.atoms id (mergeTv tv)) p hp
    rcases hk.2 with h | h
    · rw [h]
      exact hs q hq
    · rw [h]
      exact mergeTv_valid (hs q hq) htv
  | none =>
    rw [add_link_new tv h0] at hp
    rcases List.mem_append.mp hp with hp | hp
    · exact hs p hp
    · simp only [List.mem_singleton] at hp
      rw [hp]
      exact htv

theorem tvsValid_applyOps : ∀ (ops : List StoreOp) (s : AtomSpace), TVsValid s →
    TVsValid (applyOps s ops) := by
  intro ops
  induction ops with
  | nil => intro s h; exact h
  | cons op rest ih =>
    intro s h
    show TVsValid (applyOps (applyOp s op) rest)
    refine ih _ ?_
    cases op with
    | node t name st cf => exact add_node_tvsValid h (new_tv_valid st cf) t name
    | link t out st cf => exact add_link_tvsValid h (new_tv_valid st cf) t out

theorem add_node_get_persist {s : AtomSpace} (t : AtomType) (name : String)
    (tv : TruthValue) {i : AtomId} (h : (s.get i).isSome = true) :
    ((add_node s t name tv).1.get i).isSome = true := by
  cases h0 : lookup? s.nodeIndex (t, name) with
  | some id =>
    rw [add_node_found tv h0]
    show (lookup? (updateAssoc s.atoms id (mergeTv tv)) i).isSome = true
    rw [lookup?_update_isSome]
    exact h
  | none =>
    rw [add_node_new tv h0]
    exact lookup?_append_isSome _ h

theorem add_link_get_persist {s : AtomSpace} (t : AtomType) (outgoing : List AtomId)
    (tv : TruthValue) {i : AtomId} (h : (s.get i).isSome = true) :
    ((add_link s t outgoing tv).1.get i).isSome = true := by
  cases h0 : lookup? s.linkIndex (t, outgoing) with
  | some id =>
    rw [add_link_found tv h0]
    show (lookup? (updateAssoc s.atoms id (mergeTv tv)) i).isSome = true
    rw [lookup?_update_isSome]
    exact h
  | none =>
    rw [add_link_new tv h0]
    exact lookup?_append_isSome _ h

theorem mergeTv_outgoing (tv : TruthValue) (a : Atom) :
    (mergeTv tv a).outgoing = a.outgoing := by
  unfold mergeTv
  split <;> rfl

theorem add_node_orphanFree {s : AtomSpace} (hs : OrphanFree s) (t : AtomType)
    (name : String) (tv : TruthValue) : OrphanFree (add_node s t name tv).1 := by
  intro p hp i hi
  refine add_node_get_persist t name tv ?_
  cases h0 : lookup? s.nodeIndex (t, name) with
  | some id =>
    rw [add_node_found tv h0] at hp
    obtain ⟨q, hq, hk⟩ := forall₂_mem_right (updateAssoc_forall₂ s.atoms id (mergeTv tv)) p hp
    have hout : p.2.outgoing = q.2.outgoing := by
      rcases hk.2 with h | h
      · rw [h]
      · rw [h]
        exact mergeTv_outgoing tv q.2
    exact hs q hq i (hout ▸ hi)
  | none =>
    rw [add_node_new tv h0] at hp
    rcases List.mem_append.mp hp with hp | hp
    · exact hs p hp i hi
    · simp only [List.mem_singleton] at hp
      rw [hp] at hi
      cases hi

theorem add_link_orphanFree {s : AtomSpace} {outgoing : List AtomId}
    (hs : OrphanFree s) (hout : ∀ i ∈ outgoing, (s.get i).isSome = true)
    (t : AtomType) (tv : TruthValue) : OrphanFree (add_link s t outgoing tv).1 := by
  intro p hp i hi
  refine add_link_get_persist t outgoing tv ?_
  cases h0 : lookup? s.linkIndex (t, outgoing) with
  | some id =>
    rw [add_link_found tv h0] at hp
    obtain ⟨q, hq, hk⟩ := forall₂_mem_right (updateAssoc_forall₂ s.atoms id (mergeTv tv)) p hp
    have houtg : p.2.outgoing = q.2.outgoing := by
      rcases hk.2 with h | h
      · rw [h]
      · rw [h]
        exact mergeTv_outgoing tv q.2
    exact hs q hq i (houtg ▸ hi)
  | none =>
    rw [add_link_new tv h0] at hp
    rcases List.mem_append.mp hp with hp | hp
    · exact hs p hp i hi
    · simp only [List.mem_singleton] at hp
      rw [hp] at hi
      exact hout i hi

theorem orphanFree_applyOps : ∀ (ops : List StoreOp) (s : AtomSpace), OrphanFree s →
    opsOk s ops = true → OrphanFree (applyOps s ops) := by
  intro ops
  induction ops with
  | nil => intro s h _; exact h
  | cons op rest ih =>
    intro s h hok
    obtain ⟨hg, hrest⟩ := Bool.and_eq_true_iff.mp hok
    show OrphanFree (applyOps (applyOp s op) rest)
    refine ih _ ?_ hrest
    cases op with
    | node t name st cf => exact add_node_orphanFree h t name (TruthValue.new st cf)
    | link t out st cf =>
      refine add_link_orphanFree h ?_ t (TruthValue.new st cf)
      intro i hi
      exact List.all_eq_true.mp hg i hi

theorem mem_all_atoms_sorted {s : AtomSpace} {a : Atom} (h : a ∈ all_atoms_sorted s) :
    ∃ p ∈ s.atoms, a = p.2 := by
  obtain ⟨p, hp, hpa⟩ := List.mem_map.mp ((mem_insertionSort _ _ a).mp h)
  exact ⟨p, hp, hpa.symm⟩

theorem invalid_tv_count_zero {s : AtomSpace} (h : TVsValid s) :
    ((all_atoms_sorted s).filter (fun a => !a.tv.is_valid)).length = 0 := by
  rw [List.length_eq_zero, List.filter_eq_nil_iff]
  intro a ha
  obtain ⟨p, hp, hap⟩ := mem_all_atoms_sorted ha
  rw [hap]
  simp [h p hp]

theorem orphan_count_zero {s : AtomSpace} (h : OrphanFree s) :
    ((((all_atoms_sorted s).filter (fun a => a.atom_type.is_link)).flatMap
        (fun a => a.outgoing)).filter (fun id => (s.get id).isNone)).length = 0 := by
  rw [List.length_eq_zero, List.filter_eq_nil_iff]
  intro i hi
  obtain ⟨a, ha, hia⟩ := List.mem_flatMap.mp hi
  obtain ⟨p, hp, hap⟩ := mem_all_atoms_sorted (List.mem_of_mem_filter ha)
  have h2 := h p hp i (hap ▸ hia)
  intro hnone
  rw [Option.isNone_iff_eq_none] at hnone
  rw [hnone] at h2
  exact absurd h2 (by decide)

/-! ### Deduction-round anatomy -/

theorem dedCandStep_eq (s : AtomSpace) (a b ab_id : AtomId) (tv_ab : TruthValue)
    (b2 c bc_id : AtomId) (tv_bc : TruthValue) (cands : List DedCand) :
    dedCandStep s (a, b, ab_id, tv_ab) cands (b2, c, bc_id, tv_bc) =
      if b ≠ b2 ∨ a = c then cands
      else if (find_link s .InheritanceLink [a, c]).isSome then cands
      else if cands.any (fun x => x.1 == a && x.2.1 == c) then cands
      else cands ++ [(a, c, deduction_tv tv_ab tv_bc, ab_id, bc_id)] := rfl

theorem dedMatStep_eq (acc : AtomSpace × List Inference) (a c : AtomId)
    (tv : TruthValue) (ab_id bc_id : AtomId) :
    dedMatStep acc (a, c, tv, ab_id, bc_id) =
      if (add_link acc.1 .InheritanceLink [a, c] tv).2.2 then
        ((add_link acc.1 .InheritanceLink [a, c] tv).1,
          acc.2 ++ [⟨"deduction", [ab_id, bc_id],
            (add_link acc.1 .InheritanceLink [a, c] tv).2.1, tv⟩])
      else ((add_link acc.1 .InheritanceLink [a, c] tv).1, acc.2) := rfl

theorem dedCandidates_spec (s : AtomSpace) (links : List InhTriple) :
    ∀ x ∈ dedCandidates s links, CandSpec s links x := by
  refine foldl_preserve (fun cands => ∀ x ∈ cands, CandSpec s links x)
    (dedCandOuter s links) links ?_ links (fun y hy => hy) []
    (fun x hx => absurd hx (List.not_mem_nil x))
  intro cands pab hpab hP
  refine foldl_preserve (fun cands2 => ∀ x ∈ cands2, CandSpec s links x)
    (dedCandStep s pab) links ?_ links (fun y hy => hy) cands hP
  intro cands2 pbc hpbc hP2
  rcases pab with ⟨a, b, ab_id, tv_ab⟩
  rcases pbc with ⟨b2, c, bc_id, tv_bc⟩
  rw [dedCandStep_eq]
  intro x hx
  by_cases h1 : b ≠ b2 ∨ a = c
  · rw [if_pos h1] at hx
    exact hP2 x hx
  · rw [if_neg h1] at hx
    by_cases h2 : (find_link s .InheritanceLink [a, c]).isSome
    · rw [if_pos h2] at hx
      exact hP2 x hx
    · rw [if_neg h2] at hx
      by_cases h3 : cands2.any (fun y => y.1 == a && y.2.1 == c)
      · rw [if_pos h3] at hx
        exact hP2 x hx
      · rw [if_neg h3] at hx
        rcases List.mem_append.mp hx with hx | hx
        · exact hP2 x hx
        · simp only [List.mem_singleton] at hx
          subst hx
          push_neg at h1
          refine ⟨⟨(a, b, ab_id, tv_ab), hpab, (b2, c, bc_id, tv_bc), hpbc,
            h1.1, rfl, rfl⟩, ?_⟩
          exact Option.not_isSome_iff_eq_none.mp (fun hs2 => h2 hs2)

theorem dedMatStep_snd_mono (acc : AtomSpace × List Inference) (cand : DedCand) :
    acc.2.length ≤ (dedMatStep acc cand).2.length := by
  rcases cand with ⟨a, c, tv, ab_id, bc_id⟩
  rw [dedMatStep_eq]
  by_cases h : (add_link acc.1 .InheritanceLink [a, c] tv).2.2
  · rw [if_pos h]
    simp
  · rw [if_neg h]

theorem foldl_dedMatStep_snd_mono : ∀ (l : List DedCand)
    (acc : AtomSpace × List Inference),
    acc.2.length ≤ (List.foldl dedMatStep acc l).2.length := by
  intro l
  induction l with
  | nil => intro acc; exact le_refl _
  | cons cand rest ih =>
    intro acc
    exact le_trans (dedMatStep_snd_mono acc cand) (ih (dedMatStep acc cand))

theorem dedMaterialize_ne_nil {s : AtomSpace} {cands : List DedCand}
    (hne : cands ≠ [])
    (hfind : ∀ x ∈ cands, find_link s .InheritanceLink [x.1, x.2.1] = none) :
    (dedMaterialize s cands).2 ≠ [] := by
  rcases cands with _ | ⟨c0, rest⟩
  · exact absurd rfl hne
  rcases c0 with ⟨a, c, tv, ab_id, bc_id⟩
  have hf : lookup? s.linkIndex (.InheritanceLink, [a, c]) = none :=
    hfind (a, c, tv, ab_id, bc_id) (List.mem_cons_self _ _)
  have hnew : (add_link s .InheritanceLink [a, c] tv).2.2 = true := by
    rw [add_link_new tv hf]
  have hstep : (dedMatStep (s, []) (a, c, tv, ab_id, bc_id)).2.length = 1 := by
    rw [dedMatStep_eq, if_pos hnew]
    rfl
  intro hcontra
  have hlen := foldl_dedMatStep_snd_mono rest (dedMatStep (s, []) (a, c, tv, ab_id, bc_id))
  rw [hstep] at hlen
  have : (dedMaterialize s ((a, c, tv, ab_id, bc_id) :: rest)).2.length = 0 := by
    rw [hcontra]
    rfl
  show False
  rw [show dedMaterialize s ((a, c, tv, ab_id, bc_id) :: rest) =
    List.foldl dedMatStep (dedMatStep (s, []) (a, c, tv, ab_id, bc_id)) rest from rfl]
    at this
  omega

theorem deduction_step_fix {s : AtomSpace} (h : (deduction_step s).2 = []) :
    (deduction_step s).1 = s := by
  by_cases hc : dedCandidates s (inhTriples s) = []
  · show (dedMaterialize s (dedCandidates s (inhTriples s))).1 = s
    rw [hc]
    rfl
  · exact absurd h (dedMaterialize_ne_nil hc
      (fun x hx => (dedCandidates_spec s (inhTriples s) x hx).2))

theorem forward_chain_succ (s : AtomSpace) (d : ℕ) :
    forward_chain s (d + 1) =
      if (deduction_step s).2.isEmpty then ((deduction_step s).1, [])
      else ((forward_chain (deduction_step s).1 d).1,
        (deduction_step s).2 ++ (forward_chain (deduction_step s).1 d).2) := rfl

theorem reachesFixpoint_succ (s : AtomSpace) (d : ℕ) :
    reachesFixpoint s (d + 1) =
      if (deduction_step s).2.isEmpty then true
      else reachesFixpoint (deduction_step s).1 d := rfl

theorem fc_fixpoint_step : ∀ (d : ℕ) (s : AtomSpace), reachesFixpoint s d = true →
    (deduction_step (forward_chain s d).1).2 = [] := by
  intro d
  induction d with
  | zero =>
    intro s h
    exact absurd h (by simp [reachesFixpoint])
  | succ d ih =>
    intro s h
    rw [reachesFixpoint_succ] at h
    rw [forward_chain_succ]
    by_cases he : (deduction_step s).2.isEmpty
    · rw [if_pos he]
      have h2 : (deduction_step s).2 = [] := List.isEmpty_iff.mp he
      show (deduction_step (deduction_step s).1).2 = []
      rw [deduction_step_fix h2]
      exact h2
    · rw [if_neg he]
      rw [if_neg he] at h
      exact ih (deduction_step s).1 h

/-! ### Claim theorems -/

/-- Claim C3: in every `spread_attention` call, all phase-2 spreading
contributions (links distributing `sti*spread_fraction` over their
outgoing targets when `sti ≥ 1.0`, and atoms distributing
`sti*spread_fraction*0.3` over their incoming links) are computed against
the sti values as they stood at phase-2 entry — the post-boost state —
accumulated separately, and applied in one batch: the sti of every atom
present after the spread phase equals its phase-2-entry sti plus the sum
of the contributions collected for it, where the whole contribution list
is a function of the phase-2-entry state alone. -/
theorem spread_phase2_batch_semantics (s : AtomSpace) (act : List AtomId)
    (cfg : EcanConfig) (id : AtomId)
    (h : ((afterBoost s act cfg).get id).isSome = true) :
    stiOf (afterSpread s act cfg) id =
      stiOf (afterBoost s act cfg) id +
        (((collectSpreads (afterBoost s act cfg) cfg (all_ids s)).filter
            (fun p => p.1 == id)).map Prod.snd).sum :=
  applySpreads_sti_sum (collectSpreads (afterBoost s act cfg) cfg (all_ids s))
    (afterBoost s act cfg).atoms id h

theorem spread_phase2_batch_semantics_witness :
    ((afterBoost nodeEx [1] cfgEx).get 1).isSome = true ∧
    stiOf (afterSpread nodeEx [1] cfgEx) 1 =
      stiOf (afterBoost nodeEx [1] cfgEx) 1 +
        (((collectSpreads (afterBoost nodeEx [1] cfgEx) cfgEx (all_ids nodeEx)).filter
            (fun p => p.1 == 1)).map Prod.snd).sum :=
  ⟨rfl, spread_phase2_batch_semantics nodeEx [1] cfgEx 1 rfl⟩

/-- Claim C10: for every config with `initial_sti > 0` and
`spread_fraction > 0`, and every id in `activated` that exists in the
store, `spread_attention` never decreases that atom's sti: the boost and
spread phases only add nonnegative amounts and activated atoms are exempt
from decay. -/
theorem activated_sti_never_decreases (s : AtomSpace) (act : List AtomId)
    (cfg : EcanConfig) (i : AtomId) (h1 : 0 < cfg.initial_sti)
    (h2 : 0 < cfg.spread_fraction) (hmem : i ∈ act)
    (hex : (s.get i).isSome = true) :
    stiOf s i ≤ stiOf (spread_attention s act cfg).1 i := by
  have hb := boostAtoms_sti_mono (le_of_lt h1) act s.atoms i
  have hs := applySpreads_sti_mono
    (@collectSpreads_nonneg (afterBoost s act cfg) cfg (all_ids s) (le_of_lt h2))
    (boostAtoms cfg act s.atoms) i
  have hd := @decayAtoms_sti_of_activated cfg act (all_ids s) i hmem
    (applySpreads (collectSpreads (afterBoost s act cfg) cfg (all_ids s))
      (boostAtoms cfg act s.atoms))
  calc stiOf s i = stiOfA s.atoms i := rfl
    _ ≤ stiOfA (boostAtoms cfg act s.atoms) i := hb
    _ ≤ stiOfA (applySpreads (collectSpreads (afterBoost s act cfg) cfg (all_ids s))
          (boostAtoms cfg act s.atoms)) i := hs
    _ = stiOf (spread_attention s act cfg).1 i := by
        rw [stiOf_eq_stiOfA, spread_attention_fst_atoms]
        exact hd.symm

theorem activated_sti_never_decreases_witness :
    0 < cfgEx.initial_sti ∧ 0 < cfgEx.spread_fraction ∧ (1 : AtomId) ∈ [1] ∧
    (nodeEx.get 1).isSome = true ∧
    stiOf nodeEx 1 ≤ stiOf (spread_attention nodeEx [1] cfgEx).1 1 :=
  ⟨by decide, by decide, by decide, by decide,
    activated_sti_never_decreases nodeEx [1] cfgEx 1 (by decide) (by decide)
      (by decide) (by decide)⟩

/-- Claim C4: for an atom with no incoming and no outgoing edges and a
config with `spread_fraction ∈ (0,1)`, `decay_factor ∈ (0,1)`,
`initial_sti > 0`, `rent ≥ 0`: one `spread_attention` call activating
just that atom leaves its sti at `old_sti + initial_sti * weight(type)`
(weight 1.0 for list links, 0.85 for evaluation/inheritance links, 0.95
for concept nodes, 0.5 for predicate nodes); a subsequent call with an
empty activation set leaves it at `max(0, sti*decay_factor − rent)`.
Stated for stores with duplicate-free keys and a nonnegative entry sti —
both hold of every store the code can build. -/
theorem isolated_atom_attention_math (s : AtomSpace) (i : AtomId) (a : Atom)
    (cfg : EcanConfig) (hnodup : (s.atoms.map Prod.fst).Nodup)
    (ha : s.get i = some a) (hout : a.outgoing = [])
    (hno1 : ∀ q ∈ s.atoms, i ∉ q.2.outgoing)
    (hno2 : ∀ q ∈ s.incoming, i ∉ q.2)
    (hsti0 : 0 ≤ a.av.sti)
    (hsf : 0 < cfg.spread_fraction) (hsf1 : cfg.spread_fraction < 1)
    (hdf : 0 < cfg.decay_factor) (hdf1 : cfg.decay_factor < 1)
    (hinit : 0 < cfg.initial_sti) (hrent : 0 ≤ cfg.rent) :
    stiOf (spread_attention s [i] cfg).1 i =
        a.av.sti + cfg.initial_sti * typeWeight a.atom_type ∧
      stiOf (spread_attention (spread_attention s [i] cfg).1 [] cfg).1 i =
        max 0 (stiOf (spread_attention s [i] cfg).1 i * cfg.decay_factor - cfg.rent) := by
  have hb_boost : lookup? (boostAtoms cfg [i] s.atoms) i =
      some (addSti (boostAmount cfg a.atom_type) a) :=
    boostAtoms_single_lookup cfg s.atoms i a ha
  have hF0 : List.Forall₂ (keyRel StiOnly) s.atoms (afterBoost s [i] cfg).atoms :=
    boostAtoms_stiOnly cfg [i] s.atoms
  have h1a : ∀ q ∈ (afterBoost s [i] cfg).atoms, i ∉ q.2.outgoing :=
    outgoing_clear_transport hF0 hno1
  have hnt1 : ∀ p ∈ collectSpreads (afterBoost s [i] cfg) cfg (all_ids s), p.1 ≠ i :=
    collectSpreads_ne_of_isolated h1a hno2
  have hsp1 : lookup? (applySpreads
      (collectSpreads (afterBoost s [i] cfg) cfg (all_ids s))
      (boostAtoms cfg [i] s.atoms)) i =
      some (addSti (boostAmount cfg a.atom_type) a) := by
    rw [applySpreads_lookup_of_not_target hnt1 _]
    exact hb_boost
  have hs1 : lookup? ((spread_attention s [i] cfg).1).atoms i =
      some (addSti (boostAmount cfg a.atom_type) a) := by
    rw [spread_attention_fst_atoms]
    rw [decayAtoms_lookup_of_activated (List.mem_cons_self i []) _]
    exact hsp1
  have hsti1 : stiOf (spread_attention s [i] cfg).1 i =
      a.av.sti + boostAmount cfg a.atom_type := by
    rw [stiOf_eq_stiOfA]
    unfold stiOfA
    rw [hs1]
    rfl
  refine ⟨by rw [hsti1, boostAmount_eq_weight], ?_⟩
  have hF1 : List.Forall₂ (keyRel StiOnly) s.atoms
      ((spread_attention s [i] cfg).1).atoms := spread_attention_stiOnly s [i] cfg
  have h1b : ∀ q ∈ ((spread_attention s [i] cfg).1).atoms, i ∉ q.2.outgoing :=
    outgoing_clear_transport hF1 hno1
  have h2b : ∀ q ∈ ((spread_attention s [i] cfg).1).incoming, i ∉ q.2 := by
    rw [spread_attention_fst_incoming]
    exact hno2
  have hnt2 : ∀ p ∈ collectSpreads
      (afterBoost (spread_attention s [i] cfg).1 [] cfg) cfg
      (all_ids (spread_attention s [i] cfg).1), p.1 ≠ i :=
    collectSpreads_ne_of_isolated h1b h2b
  have hsp2 : lookup? (applySpreads
      (collectSpreads (afterBoost (spread_attention s [i] cfg).1 [] cfg) cfg
        (all_ids (spread_attention s [i] cfg).1))
      (boostAtoms cfg [] ((spread_attention s [i] cfg).1).atoms)) i =
      some (addSti (boostAmount cfg a.atom_type) a) := by
    rw [applySpreads_lookup_of_not_target hnt2 _, boostAtoms_nil]
    exact hs1
  have hkeys : ((spread_attention s [i] cfg).1).atoms.map Prod.fst =
      s.atoms.map Prod.fst := (forall₂_keys hF1).symm
  have hnodup1 : (all_ids (spread_attention s [i] cfg).1).Nodup :=
    all_ids_nodup (by rw [hkeys]; exact hnodup)
  have hmem1 : i ∈ all_ids (spread_attention s [i] cfg).1 := mem_all_ids_of_lookup hs1
  have hfinal : lookup?
      ((spread_attention (spread_attention s [i] cfg).1 [] cfg).1).atoms i =
      some (decayAtom cfg (addSti (boostAmount cfg a.atom_type) a)) := by
    rw [spread_attention_fst_atoms]
    rw [decayAtoms_lookup_apply (List.not_mem_nil i) hnodup1 hmem1 _]
    rw [hsp2]
    rfl
  have hbpos : 0 < (addSti (boostAmount cfg a.atom_type) a).av.sti := by
    have := boostAmount_pos hinit a.atom_type
    show 0 < a.av.sti + boostAmount cfg a.atom_type
    linarith
  rw [stiOf_eq_stiOfA]
  unfold stiOfA
  rw [hfinal, hsti1]
  show (decayAtom cfg (addSti (boostAmount cfg a.atom_type) a)).av.sti =
    max 0 ((a.av.sti + boostAmount cfg a.atom_type) * cfg.decay_factor - cfg.rent)
  unfold decayAtom
  rw [if_pos hbpos]
  rfl

theorem isolated_atom_attention_math_witness :
    (nodeEx.atoms.map Prod.fst).Nodup ∧ nodeEx.get 1 = some nodeExAtom ∧
    nodeExAtom.outgoing = [] ∧ (∀ q ∈ nodeEx.atoms, 1 ∉ q.2.outgoing) ∧
    (∀ q ∈ nodeEx.incoming, 1 ∉ q.2) ∧ 0 ≤ nodeExAtom.av.sti ∧
    0 < cfgEx.spread_fraction ∧ cfgEx.spread_fraction < 1 ∧
    0 < cfgEx.decay_factor ∧ cfgEx.decay_factor < 1 ∧
    0 < cfgEx.initial_sti ∧ 0 ≤ cfgEx.rent ∧
    (stiOf (spread_attention nodeEx [1] cfgEx).1 1 =
        nodeExAtom.av.sti + cfgEx.initial_sti * typeWeight nodeExAtom.atom_type ∧
      stiOf (spread_attention (spread_attention nodeEx [1] cfgEx).1 [] cfgEx).1 1 =
        max 0 (stiOf (spread_attention nodeEx [1] cfgEx).1 1 * cfgEx.decay_factor -
          cfgEx.rent)) :=
  ⟨by decide, rfl, rfl, by decide, by decide, by decide, by decide, by decide, by decide,
    by decide, by decide, by decide,
    isolated_atom_attention_math nodeEx 1 nodeExAtom cfgEx (by decide) rfl rfl
      (by decide) (by decide) (by decide) (by decide) (by decide) (by decide) (by decide)
      (by decide) (by decide)⟩

/-- Claim C5: inserting the same `(type, name)` node key or the same
`(type, ordered-outgoing)` link key twice returns the same id both times
and increases the total atom count by at most one across both calls; on
the second insertion the stored truth value is overwritten by the new one
iff the new confidence is strictly greater than the existing confidence,
with strength and confidence travelling together, and the call returns
`(existing_id, false)`. -/
theorem insert_idempotent_confmax (s : AtomSpace) (hwf : wf s) :
    (∀ (t : AtomType) (name : String) (tv1 tv2 : TruthValue),
      NodeIdemProp s t name tv1 tv2) ∧
    (∀ (t : AtomType) (outgoing : List AtomId) (tv1 tv2 : TruthValue),
      LinkIdemProp s t outgoing tv1 tv2) :=
  ⟨fun t name tv1 tv2 => add_node_idem hwf t name tv1 tv2,
   fun t outgoing tv1 tv2 => add_link_idem hwf t outgoing tv1 tv2⟩

theorem insert_idempotent_confmax_witness :
    wf AtomSpace.empty ∧
    NodeIdemProp AtomSpace.empty .ConceptNode "x" (TruthValue.new 1 0)
      (TruthValue.new 1 1) ∧
    LinkIdemProp AtomSpace.empty .ListLink [1, 2] (TruthValue.new 1 1)
      (TruthValue.new 1 0) :=
  ⟨by decide,
    (insert_idempotent_confmax AtomSpace.empty (by decide)).1 .ConceptNode "x"
      (TruthValue.new 1 0) (TruthValue.new 1 1),
    (insert_idempotent_confmax AtomSpace.empty (by decide)).2 .ListLink [1, 2]
      (TruthValue.new 1 1) (TruthValue.new 1 0)⟩

/-- Claim C9: no public store operation ever removes an atom or shrinks
any index: after every operation, every id previously present is still
present with the same type/name/outgoing, every index entry persists, and
ids are assigned by the store monotonically increasing from 1 (the fresh
store starts well-formed at `next_id = 1`; each insertion keeps
well-formedness, never lowers the counter, and a newly created atom takes
the counter's value, which no existing atom carries). -/
theorem store_never_shrinks :
    wf AtomSpace.empty ∧
    (∀ (s : AtomSpace), wf s → ∀ (t : AtomType) (name : String) (tv : TruthValue),
      InsertPreserves s (add_node s t name tv).1 (add_node s t name tv).2.1
        (add_node s t name tv).2.2) ∧
    (∀ (s : AtomSpace), wf s →
      ∀ (t : AtomType) (outgoing : List AtomId) (tv : TruthValue),
      InsertPreserves s (add_link s t outgoing tv).1 (add_link s t outgoing tv).2.1
        (add_link s t outgoing tv).2.2) :=
  ⟨wf_empty, fun _ hwf t name tv => add_node_preserves hwf t name tv,
    fun _ hwf t outgoing tv => add_link_preserves hwf t outgoing tv⟩

theorem store_never_shrinks_witness :
    wf chain3 ∧
    InsertPreserves chain3 (add_node chain3 .ConceptNode "d" (TruthValue.new 1 1)).1
      (add_node chain3 .ConceptNode "d" (TruthValue.new 1 1)).2.1
      (add_node chain3 .ConceptNode "d" (TruthValue.new 1 1)).2.2 ∧
    InsertPreserves chain3 (add_link chain3 .ListLink [1, 2] (TruthValue.new 1 1)).1
      (add_link chain3 .ListLink [1, 2] (TruthValue.new 1 1)).2.1
      (add_link chain3 .ListLink [1, 2] (TruthValue.new 1 1)).2.2 :=
  ⟨by decide,
    store_never_shrinks.2.1 chain3 (by decide) .ConceptNode "d" (TruthValue.new 1 1),
    store_never_shrinks.2.2 chain3 (by decide) .ListLink [1, 2] (TruthValue.new 1 1)⟩

/-- Claim C7 counterexample: re-inserting an existing node key with a
strictly higher-confidence truth value — `add_node`, not
`spread_attention` — changes the stored atom's truth value, so the
attention value is not the only field mutated after creation. -/
theorem insert_mutates_existing_tv :
    ((add_node lowConfEx .ConceptNode "x" (TruthValue.new 0 1)).1.get 1).map Atom.tv ≠
      (lowConfEx.get 1).map Atom.tv := by decide

/-- Claim C7 (amended): after creation, an atom's id, type, name and
outgoing list are never mutated; its truth value is mutated only by
re-insertion of its key carrying strictly greater confidence, which
overwrites the whole truth value; `spread_attention` mutates only the
sti component of the attention value and nothing else; `forward_chain`
leaves every pre-existing atom intact up to (possibly) a
confidence-raising truth-value overwrite by its insertions. -/
theorem atom_mutation_frame :
    (∀ (s : AtomSpace) (t : AtomType) (name : String) (tv : TruthValue),
      ∀ p ∈ s.atoms, ∃ q ∈ (add_node s t name tv).1.atoms,
        p.1 = q.1 ∧ MergedInto tv p.2 q.2) ∧
    (∀ (s : AtomSpace) (t : AtomType) (outgoing : List AtomId) (tv : TruthValue),
      ∀ p ∈ s.atoms, ∃ q ∈ (add_link s t outgoing tv).1.atoms,
        p.1 = q.1 ∧ MergedInto tv p.2 q.2) ∧
    (∀ (s : AtomSpace) (act : List AtomId) (cfg : EcanConfig),
      ∀ p ∈ s.atoms, ∃ q ∈ ((spread_attention s act cfg).1).atoms,
        p.1 = q.1 ∧ StiOnly p.2 q.2) ∧
    (∀ (s : AtomSpace) (d : ℕ), StorePresConf s (forward_chain s d).1) :=
  ⟨add_node_merged, add_link_merged,
    fun s act cfg p hp => by
      obtain ⟨q, hq, hk⟩ := forall₂_mem (spread_attention_stiOnly s act cfg) p hp
      exact ⟨q, hq, hk.1, hk.2⟩,
    fun s d => forward_chain_confLe d s⟩

theorem atom_mutation_frame_witness :
    (∃ q ∈ (add_node lowConfEx .ConceptNode "x" (TruthValue.new 0 1)).1.atoms,
      (1 : AtomId) = q.1 ∧
        MergedInto (TruthValue.new 0 1)
          (Atom.new_node 1 .ConceptNode "x" (TruthValue.new 1 0)) q.2) ∧
    ∃ q ∈ ((spread_attention nodeEx [1] cfgEx).1).atoms,
      (1 : AtomId) = q.1 ∧ StiOnly nodeExAtom q.2 :=
  ⟨atom_mutation_frame.1 lowConfEx .ConceptNode "x" (TruthValue.new 0 1)
      (1, Atom.new_node 1 .ConceptNode "x" (TruthValue.new 1 0)) (by decide),
    atom_mutation_frame.2.2.1 nodeEx [1] cfgEx (1, nodeExAtom) (by decide)⟩

/-- Claim C6 counterexample: `add_link` never validates its outgoing ids,
so a single insertion referencing the never-inserted id 5 makes the
integrity auditor report an orphan outgoing reference (`no-orphans`
fails) even though every truth value is in range. -/
theorem auditor_reports_orphan :
    (run_tikkun orphanEx).checks.map (fun c => (c.name, c.passed)) =
      [("atoms>0", true), ("tvs-valid", true), ("no-orphans", false),
       ("has-types", false), ("no-self-inherit", true)] := by decide

/-- Claim C6 (amended): after any sequence of insert_node/insert_link
calls starting from an empty store, every stored truth value's strength
and confidence lie in [0,1], so the auditor never reports an invalid
truth value; and provided every insert_link call's outgoing ids resolve
to atoms existing at the moment of that call — the calling contract under
which the spec's claim was written — every link's outgoing ids resolve,
so the auditor never reports an orphan outgoing reference. -/
theorem auditor_soundness :
    (∀ ops : List StoreOp, ∀ c ∈ (run_tikkun (applyOps AtomSpace.empty ops)).checks,
      c.name = "tvs-valid" → c.passed = true) ∧
    (∀ ops : List StoreOp, opsOk AtomSpace.empty ops = true →
      ∀ c ∈ (run_tikkun (applyOps AtomSpace.empty ops)).checks,
        c.name = "no-orphans" → c.passed = true) := by
  constructor
  · intro ops c hc hname
    have hv : TVsValid (applyOps AtomSpace.empty ops) :=
      tvsValid_applyOps ops AtomSpace.empty (fun p hp => by cases hp)
    simp only [run_tikkun, List.mem_cons, List.not_mem_nil, or_false] at hc
    rcases hc with hc | hc | hc | hc | hc
    · rw [hc] at hname
      exact absurd (show ("atoms>0" : String) = "tvs-valid" from hname) (by decide)
    · rw [hc]
      show decide _ = true
      rw [decide_eq_true_eq]
      exact invalid_tv_count_zero hv
    · rw [hc] at hname
      exact absurd (show ("no-orphans" : String) = "tvs-valid" from hname) (by decide)
    · rw [hc] at hname
      exact absurd (show ("has-types" : String) = "tvs-valid" from hname) (by decide)
    · rw [hc] at hname
      exact absurd (show ("no-self-inherit" : String) = "tvs-valid" from hname) (by decide)
  · intro ops hok c hc hname
    have hof : OrphanFree (applyOps AtomSpace.empty ops) :=
      orphanFree_applyOps ops AtomSpace.empty (fun p hp => by cases hp) hok
    simp only [run_tikkun, List.mem_cons, List.not_mem_nil, or_false] at hc
    rcases hc with hc | hc | hc | hc | hc
    · rw [hc] at hname
      exact absurd (show ("atoms>0" : String) = "no-orphans" from hname) (by decide)
    · rw [hc] at hname
      exact absurd (show ("tvs-valid" : String) = "no-orphans" from hname) (by decide)
    · rw [hc]
      show decide _ = true
      rw [decide_eq_true_eq]
      exact orphan_count_zero hof
    · rw [hc] at hname
      exact absurd (show ("has-types" : String) = "no-orphans" from hname) (by decide)
    · rw [hc] at hname
      exact absurd (show ("no-self-inherit" : String) = "no-orphans" from hname) (by decide)

theorem auditor_soundness_witness :
    opsOk AtomSpace.empty demoOps = true ∧
    (⟨"tvs-valid", true, none⟩ : TikkunCheck) ∈
      (run_tikkun (applyOps AtomSpace.empty demoOps)).checks ∧
    (⟨"no-orphans", true, none⟩ : TikkunCheck) ∈
      (run_tikkun (applyOps AtomSpace.empty demoOps)).checks ∧
    ((⟨"tvs-valid", true, none⟩ : TikkunCheck).passed = true ∧
      (⟨"no-orphans", true, none⟩ : TikkunCheck).passed = true) :=
  ⟨by decide, by decide, by decide,
    auditor_soundness.1 demoOps ⟨"tvs-valid", true, none⟩ (by decide) rfl,
    auditor_soundness.2 demoOps (by decide) ⟨"no-orphans", true, none⟩ (by decide) rfl⟩

/-- Claim C8 counterexample: `atoms_by_sti` stable-sorts by sti only, so
the order among equal-sti atoms follows the `HashMap::values()`
enumeration order, which Rust leaves unspecified: two legitimate
enumerations of the same store's two equal-sti atoms yield two different
output lists, so ties are not broken deterministically. -/
theorem top_by_sti_tie_order_dependent :
    ([tieAtomA, tieAtomB].Perm (tieStore.atoms.map Prod.snd) ∧
      [tieAtomB, tieAtomA].Perm (tieStore.atoms.map Prod.snd)) ∧
    atoms_by_sti [tieAtomA, tieAtomB] 10 ≠ atoms_by_sti [tieAtomB, tieAtomA] 10 := by
  refine ⟨⟨by decide, by decide⟩, ?_⟩
  have e1 : atoms_by_sti [tieAtomA, tieAtomB] 10 = [tieAtomA, tieAtomB] := by
    norm_num [atoms_by_sti, tieAtomA, tieAtomB, insertionSort, insertSorted]
  have e2 : atoms_by_sti [tieAtomB, tieAtomA] 10 = [tieAtomB, tieAtomA] := by
    norm_num [atoms_by_sti, tieAtomA, tieAtomB, insertionSort, insertSorted]
  rw [e1, e2]
  decide

/-- Claim C8 (amended): for every enumeration order of the stored atoms
and every limit, `atoms_by_sti` returns at most `limit` atoms, each drawn
from the enumeration and having `sti > 0.01`, sorted descending by sti;
the relative order of equal-sti atoms follows the enumeration order,
which the `HashMap` leaves unspecified, so equal stores need not produce
the same ordered list. -/
theorem top_by_sti_shape (order : List Atom) (limit : ℕ) :
    (atoms_by_sti order limit).length ≤ limit ∧
    (∀ a ∈ atoms_by_sti order limit, (0.01 : ℚ) < a.av.sti ∧ a ∈ order) ∧
    (atoms_by_sti order limit).Pairwise (fun a b => b.av.sti ≤ a.av.sti) := by
  refine ⟨List.length_take_le _ _, ?_, ?_⟩
  · intro a ha
    have ha2 := (mem_insertionSort _ _ a).mp (List.mem_of_mem_take ha)
    obtain ⟨hmem, hpred⟩ := List.mem_filter.mp ha2
    exact ⟨of_decide_eq_true hpred, hmem⟩
  · have hs := @insertionSort_pairwise Atom
      (fun a b : Atom => decide (b.av.sti ≤ a.av.sti))
      (fun a b => by
        rcases le_total b.av.sti a.av.sti with h | h
        · exact Or.inl (decide_eq_true h)
        · exact Or.inr (decide_eq_true h))
      (fun a b c h1 h2 => decide_eq_true
        (le_trans (of_decide_eq_true h2) (of_decide_eq_true h1)))
      (order.filter (fun a => decide ((0.01 : ℚ) < a.av.sti)))
    exact List.Pairwise.sublist (List.take_sublist _ _)
      (hs.imp (fun h => of_decide_eq_true h))

theorem top_by_sti_shape_witness : (atoms_by_sti [tieAtomA] 5).length ≤ 5 :=
  (top_by_sti_shape [tieAtomA] 5).1

/-- Claim C2 counterexample: over the 3-edge chain a→b→c→d with depth 1,
the first `forward_chain` call stops after one round (fuel exhausted, no
fixpoint), so an immediate second call at the same depth still derives
the length-3 conclusion a→d: its inference list is not empty. -/
theorem forward_chain_twice_nonempty :
    (forward_chain ((forward_chain chain4 1).1) 1).2 ≠ [] := by decide

/-- Claim C2 (amended): calling `forward_chain` twice in sequence at the
same depth, the second call returns an empty list, provided the first
call reached fixpoint within its round budget (some round yielded zero
new links, rather than the loop stopping only because `max_rounds` ran
out).  A round that yields nothing leaves the store untouched, so the
fixpoint store re-enters `deduction_step`, which again yields nothing,
and the second call stops in its first round. -/
theorem forward_chain_twice_empty (s : AtomSpace) (d : ℕ)
    (h : reachesFixpoint s d = true) :
    (forward_chain ((forward_chain s d).1) d).2 = [] := by
  have hstep := fc_fixpoint_step d s h
  cases d with
  | zero => exact absurd h (by simp [reachesFixpoint])
  | succ e =>
    rw [forward_chain_succ]
    rw [if_pos (by rw [List.isEmpty_iff]; exact hstep)]

theorem forward_chain_twice_empty_witness :
    reachesFixpoint chain3 2 = true ∧
    (forward_chain ((forward_chain chain3 2).1) 2).2 = [] :=
  ⟨by decide, forward_chain_twice_empty chain3 2 (by decide)⟩

/-! ### Chain paths and the transitive-closure bound -/

theorem chainPath_pos {E : List (AtomId × AtomId)} {a b : AtomId} {n : ℕ}
    (h : chainPath E a b n) : 1 ≤ n := by
  induction h with
  | single _ => exact le_refl 1
  | comp _ _ ih1 ih2 => omega

theorem chainPath_one {E : List (AtomId × AtomId)} {a c : AtomId} {n : ℕ}
    (h : chainPath E a c n) : n = 1 → (a, c) ∈ E := by
  induction h with
  | single hmem => intro _; exact hmem
  | comp h1 h2 ih1 ih2 =>
    intro heq
    have p1 := chainPath_pos h1
    have p2 := chainPath_pos h2
    omega

/-- A chain of `n1 + n2` edges splits at any interior position: there is
a midpoint reached by the first `n1` edges from which the remaining `n2`
edges continue. -/
theorem chainPath_split {E : List (AtomId × AtomId)} {a c : AtomId} {n : ℕ}
    (h : chainPath E a c n) : ∀ n1 n2 : ℕ, 1 ≤ n1 → 1 ≤ n2 → n1 + n2 = n →
    ∃ b, chainPath E a b n1 ∧ chainPath E b c n2 := by
  induction h with
  | single hmem =>
    intro n1 n2 h1 h2 he
    omega
  | @comp a' b' c' m' k' hab hbc ih1 ih2 =>
    intro n1 n2 h1 h2 he
    rcases Nat.lt_trichotomy n1 m' with hlt | heq | hgt
    · obtain ⟨u, p1, p2⟩ := ih1 n1 (m' - n1) h1 (by omega) (by omega)
      refine ⟨u, p1, ?_⟩
      have hc := chainPath.comp p2 hbc
      have heq2 : m' - n1 + k' = n2 := by omega
      rwa [heq2] at hc
    · refine ⟨b', ?_, ?_⟩
      · rwa [heq]
      · have heq2 : n2 = k' := by omega
        rwa [heq2]
    · obtain ⟨u, p1, p2⟩ := ih2 (n1 - m') n2 (by omega) h2 (by omega)
      refine ⟨u, ?_, p2⟩
      have hc := chainPath.comp hab p1
      have heq2 : m' + (n1 - m') = n1 := by omega
      rwa [heq2] at hc

/-- Chains stay between a lower bound on every edge's source and an
upper bound on every edge's target. -/
theorem chainPath_src_tgt {E : List (AtomId × AtomId)} (lo hi : AtomId)
    (hlo : ∀ p ∈ E, lo ≤ p.1) (hhi : ∀ p ∈ E, p.2 ≤ hi) :
    ∀ {a b : AtomId} {n : ℕ}, chainPath E a b n → lo ≤ a ∧ b ≤ hi := by
  intro a b n h
  induction h with
  | single hmem => exact ⟨hlo _ hmem, hhi _ hmem⟩
  | comp h1 h2 ih1 ih2 => exact ⟨ih1.1, ih2.2⟩

/-- Over an edge list where every edge goes from `x` to `x + 1`, a chain
of `n` edges from `a` ends at `a + n`. -/
theorem chainPath_shift {E : List (AtomId × AtomId)}
    (hE : ∀ p ∈ E, p.2 = p.1 + 1) : ∀ {a c : AtomId} {n : ℕ},
    chainPath E a c n → c = a + n := by
  intro a c n h
  induction h with
  | single hmem => exact hE _ hmem
  | comp h1 h2 ih1 ih2 =>
    subst ih1
    subst ih2
    exact Nat.add_assoc _ _ _

theorem tripleOf_none (s : AtomSpace) (id : AtomId) (hg : lookup? s.atoms id = none) :
    tripleOf s id = none := by
  unfold tripleOf AtomSpace.get
  rw [hg]

theorem tripleOf_some (s : AtomSpace) (id : AtomId) (a : Atom)
    (hg : lookup? s.atoms id = some a) :
    tripleOf s id =
      match a.outgoing with
      | [x, y] => some (x, y, id, a.tv)
      | _ => none := by
  unfold tripleOf AtomSpace.get
  rw [hg]

theorem tripleOf_congr (s2 s : AtomSpace) (id : AtomId)
    (h : lookup? s2.atoms id = lookup? s.atoms id) : tripleOf s2 id = tripleOf s id := by
  unfold tripleOf AtomSpace.get
  rw [h]

theorem inhEdges_eq (s : AtomSpace) :
    inhEdges s = (get_by_type s .InheritanceLink).filterMap (edgeOf s) := by
  unfold inhEdges inhTriples
  rw [List.map_filterMap]
  rfl

theorem edgeOf_update_mergeTv (s : AtomSpace) (id0 : AtomId) (tv : TruthValue)
    (id : AtomId) :
    edgeOf { s with atoms := updateAssoc s.atoms id0 (mergeTv tv) } id = edgeOf s id := by
  by_cases hid : id = id0
  · subst hid
    cases hg : lookup? s.atoms id with
    | none =>
      have hg2 : lookup? (updateAssoc s.atoms id (mergeTv tv)) id = none := by
        rw [lookup?_updateAssoc_self, hg]
        rfl
      unfold edgeOf
      rw [tripleOf_none s id hg,
        tripleOf_none { s with atoms := updateAssoc s.atoms id (mergeTv tv) } id hg2]
    | some a =>
      have hg2 : lookup? (updateAssoc s.atoms id (mergeTv tv)) id =
          some (mergeTv tv a) := by
        rw [lookup?_updateAssoc_self, hg]
        rfl
      unfold edgeOf
      rw [tripleOf_some { s with atoms := updateAssoc s.atoms id (mergeTv tv) } id
          (mergeTv tv a) hg2,
        tripleOf_some s id a hg, mergeTv_outgoing]
      rcases a.outgoing with _ | ⟨x, _ | ⟨y, _ | ⟨z, rest⟩⟩⟩ <;> rfl
  · unfold edgeOf
    rw [tripleOf_congr { s with atoms := updateAssoc s.atoms id0 (mergeTv tv) } s id
      (lookup?_updateAssoc_ne s.atoms (mergeTv tv) hid)]

theorem lookup?_append_singleton_ne {α β : Type} [DecidableEq α] (l : List (α × β))
    {j k : α} (v : β) (h : j ≠ k) : lookup? (l ++ [(k, v)]) j = lookup? l j := by
  cases hl : lookup? l j with
  | some w => exact lookup?_append_left _ hl
  | none =>
    rw [lookup?_append_right _ hl]
    simp only [lookup?]
    rw [if_neg (fun hkj => h hkj.symm)]

theorem mem_get_by_type_lt {s : AtomSpace} (hwf : wf s) {ty : AtomType} {id : AtomId}
    (h : id ∈ get_by_type s ty) : id < s.nextId := by
  unfold get_by_type at h
  cases hl : lookup? s.typeIndex ty with
  | none =>
    rw [hl] at h
    cases h
  | some ids =>
    rw [hl] at h
    exact hwf.2.2.2.2.2.1 (ty, ids) (lookup?_mem hl) id h

theorem inhEdges_add_link_found {s : AtomSpace} {t : AtomType} {o : List AtomId}
    {id0 : AtomId} (tv : TruthValue) (h : lookup? s.linkIndex (t, o) = some id0) :
    inhEdges (add_link s t o tv).1 = inhEdges s := by
  rw [add_link_found tv h]
  rw [inhEdges_eq, inhEdges_eq]
  refine List.filterMap_congr ?_
  intro id _
  exact edgeOf_update_mergeTv s id0 tv id

theorem inhEdges_add_link_new {s : AtomSpace} {a c : AtomId} (tv : TruthValue)
    (hwf : wf s) (h : lookup? s.linkIndex (.InheritanceLink, [a, c]) = none) :
    inhEdges (add_link s .InheritanceLink [a, c] tv).1 = inhEdges s ++ [(a, c)] := by
  rw [add_link_new tv h]
  rw [inhEdges_eq, inhEdges_eq]
  have hty : get_by_type
      { s with
          atoms := s.atoms ++ [(s.nextId, Atom.new_link s.nextId .InheritanceLink [a, c] tv)]
          nextId := s.nextId + 1
          linkIndex := s.linkIndex ++ [((.InheritanceLink, [a, c]), s.nextId)]
          typeIndex := pushEntry s.typeIndex .InheritanceLink s.nextId
          incoming := [a, c].foldl (fun m target => pushEntry m target s.nextId)
            s.incoming } .InheritanceLink =
      get_by_type s .InheritanceLink ++ [s.nextId] := by
    show (lookup? (pushEntry s.typeIndex .InheritanceLink s.nextId)
      .InheritanceLink).getD [] = _
    rw [lookup?_pushEntry_self]
    rfl
  rw [hty, List.filterMap_append]
  have hsome : lookup?
      (s.atoms ++ [(s.nextId, Atom.new_link s.nextId .InheritanceLink [a, c] tv)])
      s.nextId = some (Atom.new_link s.nextId .InheritanceLink [a, c] tv) := by
    rw [lookup?_append_right _ (lookup?_atoms_nextId hwf)]
    exact lookup?_singleton _ _
  congr 1
  · refine List.filterMap_congr ?_
    intro id hid
    have hne : id ≠ s.nextId := Nat.ne_of_lt (mem_get_by_type_lt hwf hid)
    unfold edgeOf
    rw [tripleOf_congr
      { s with
          atoms := s.atoms ++
            [(s.nextId, Atom.new_link s.nextId .InheritanceLink [a, c] tv)]
          nextId := s.nextId + 1
          linkIndex := s.linkIndex ++ [((.InheritanceLink, [a, c]), s.nextId)]
          typeIndex := pushEntry s.typeIndex .InheritanceLink s.nextId
          incoming := [a, c].foldl (fun m target => pushEntry m target s.nextId)
            s.incoming } s id (lookup?_append_singleton_ne _ _ hne)]
  · show List.filterMap _ [s.nextId] = [(a, c)]
    have hedge : edgeOf
        { s with
            atoms := s.atoms ++
              [(s.nextId, Atom.new_link s.nextId .InheritanceLink [a, c] tv)]
            nextId := s.nextId + 1
            linkIndex := s.linkIndex ++ [((.InheritanceLink, [a, c]), s.nextId)]
            typeIndex := pushEntry s.typeIndex .InheritanceLink s.nextId
            incoming := [a, c].foldl (fun m target => pushEntry m target s.nextId)
              s.incoming } s.nextId = some (a, c) := by
      unfold edgeOf
      rw [tripleOf_some
        { s with
            atoms := s.atoms ++
              [(s.nextId, Atom.new_link s.nextId .InheritanceLink [a, c] tv)]
            nextId := s.nextId + 1
            linkIndex := s.linkIndex ++ [((.InheritanceLink, [a, c]), s.nextId)]
            typeIndex := pushEntry s.typeIndex .InheritanceLink s.nextId
            incoming := [a, c].foldl (fun m target => pushEntry m target s.nextId)
              s.incoming } s.nextId
        (Atom.new_link s.nextId .InheritanceLink [a, c] tv) hsome]
      rfl
    simp only [List.filterMap_cons, List.filterMap_nil, hedge]

theorem mem_inhEdges_of_triple {s : AtomSpace} {tr : InhTriple}
    (h : tr ∈ inhTriples s) : (tr.1, tr.2.1) ∈ inhEdges s :=
  List.mem_map.mpr ⟨tr, h, rfl⟩

theorem edgesBounded_mono {E : List (AtomId × AtomId)} {s : AtomSpace} {B B2 : ℕ}
    (h : B ≤ B2) (hb : EdgesBounded E s B) : EdgesBounded E s B2 := by
  intro e he
  obtain ⟨n, h1, h2, hp⟩ := hb e he
  exact ⟨n, h1, le_trans h2 h, hp⟩

theorem deduction_step_bounded {E : List (AtomId × AtomId)} {s : AtomSpace} {B : ℕ}
    (hwf : wf s) (hb : EdgesBounded E s B) :
    wf (deduction_step s).1 ∧ EdgesBounded E (deduction_step s).1 (2 * B) := by
  have hcand : ∀ x ∈ dedCandidates s (inhTriples s),
      ∃ n, 1 ≤ n ∧ n ≤ 2 * B ∧ chainPath E x.1 x.2.1 n := by
    intro x hx
    obtain ⟨⟨pab, hpab, pbc, hpbc, hmid, hx1, hx2⟩, _⟩ :=
      dedCandidates_spec s (inhTriples s) x hx
    obtain ⟨m, hm1, hm2, hpm⟩ := hb _ (mem_inhEdges_of_triple hpab)
    obtain ⟨n, hn1, hn2, hpn⟩ := hb _ (mem_inhEdges_of_triple hpbc)
    refine ⟨m + n, by omega, by omega, ?_⟩
    rw [hx1, hx2]
    exact chainPath.comp hpm (by rw [hmid]; exact hpn)
  show wf (dedMaterialize s (dedCandidates s (inhTriples s))).1 ∧
    EdgesBounded E (dedMaterialize s (dedCandidates s (inhTriples s))).1 (2 * B)
  refine foldl_preserve
    (fun acc : AtomSpace × List Inference => wf acc.1 ∧ EdgesBounded E acc.1 (2 * B))
    dedMatStep (dedCandidates s (inhTriples s)) ?_
    (dedCandidates s (inhTriples s)) (fun y hy => hy) (s, [])
    ⟨hwf, edgesBounded_mono (by omega) hb⟩
  intro acc cand hcmem hP
  obtain ⟨hw, hbd⟩ := hP
  constructor
  · rw [dedMatStep_fst]
    exact add_link_wf hw _ _ _
  · rw [dedMatStep_fst]
    cases h0 : lookup? acc.1.linkIndex (.InheritanceLink, [cand.1, cand.2.1]) with
    | some id =>
      intro e he
      rw [inhEdges_add_link_found _ h0] at he
      exact hbd e he
    | none =>
      intro e he
      rw [inhEdges_add_link_new _ hw h0] at he
      rcases List.mem_append.mp he with he | he
      · exact hbd e he
      · simp only [List.mem_singleton] at he
        subst he
        exact hcand cand hcmem

theorem forward_chain_bounded {E : List (AtomId × AtomId)} :
    ∀ (d : ℕ) (s : AtomSpace) (B : ℕ), wf s → EdgesBounded E s B →
    wf (forward_chain s d).1 ∧ EdgesBounded E (forward_chain s d).1 (B * 2 ^ d) := by
  intro d
  induction d with
  | zero =>
    intro s B hwf hb
    rw [pow_zero, mul_one]
    exact ⟨hwf, hb⟩
  | succ d ih =>
    intro s B hwf hb
    rw [forward_chain_succ]
    obtain ⟨hw2, hb2⟩ := deduction_step_bounded hwf hb
    by_cases he : (deduction_step s).2.isEmpty
    · rw [if_pos he]
      refine ⟨hw2, edgesBounded_mono ?_ hb2⟩
      have h1 : 1 ≤ 2 ^ d := Nat.one_le_pow d 2 (by norm_num)
      have h2 : 2 ≤ 2 ^ d * 2 := by
        calc 2 = 1 * 2 := (one_mul 2).symm
          _ ≤ 2 ^ d * 2 := Nat.mul_le_mul_right 2 h1
      calc 2 * B = B * 2 := by ring
        _ ≤ B * (2 ^ d * 2) := Nat.mul_le_mul_left B h2
        _ = B * 2 ^ (d + 1) := by rw [pow_succ]
    · rw [if_neg he]
      obtain ⟨hw3, hb3⟩ := ih (deduction_step s).1 (2 * B) hw2 hb2
      refine ⟨hw3, edgesBounded_mono (le_of_eq ?_) hb3⟩
      rw [pow_succ]
      ring

/-! ### Fixpoint within (longest chain length − 1) rounds

`deduction_step` materializes, in one round, the composition of every
composable pair of inheritance edges currently present.  Tracking the
set of pairs already covered therefore doubles the reachable chain
length each round, so over a store whose seed edges admit no chain of
more than `L` atoms, a round yielding zero new links occurs within
`L − 1` rounds.  The lemmas below establish the pieces: the index
synchronization invariant `InhIndexOk` is preserved, a round keeps every
edge and completes every composable pair, a fully covered store yields
an empty round, and the cover doubles each productive round. -/

theorem triple_of_mem_inhEdges {s : AtomSpace} {e : AtomId × AtomId}
    (h : e ∈ inhEdges s) : ∃ tr ∈ inhTriples s, tr.1 = e.1 ∧ tr.2.1 = e.2 := by
  obtain ⟨tr, htr, heq⟩ := List.mem_map.mp h
  exact ⟨tr, htr, congrArg Prod.fst heq, congrArg Prod.snd heq⟩

theorem inhIndexOk_edge_of_lookup {s : AtomSpace} {a c id : AtomId}
    (hidx : InhIndexOk s) (h : find_link s .InheritanceLink [a, c] = some id) :
    (a, c) ∈ inhEdges s := by
  have hmem := lookup?_mem
    (show lookup? s.linkIndex (AtomType.InheritanceLink, [a, c]) = some id from h)
  obtain ⟨⟨atom, hget, hout⟩, hty⟩ :=
    hidx.2 ((AtomType.InheritanceLink, [a, c]), id) hmem rfl
  have htr : tripleOf s id = some (a, c, id, atom.tv) := by
    rw [tripleOf_some s id atom hget, hout]
  exact mem_inhEdges_of_triple (List.mem_filterMap.mpr ⟨id, hty, htr⟩)

theorem inhIndexOk_update_mergeTv {s : AtomSpace} (hidx : InhIndexOk s)
    (id0 : AtomId) (tv : TruthValue) :
    InhIndexOk { s with atoms := updateAssoc s.atoms id0 (mergeTv tv) } := by
  have hE : inhEdges { s with atoms := updateAssoc s.atoms id0 (mergeTv tv) } =
      inhEdges s := by
    rw [inhEdges_eq, inhEdges_eq]
    exact List.filterMap_congr (fun id _ => edgeOf_update_mergeTv s id0 tv id)
  constructor
  · intro e he
    rw [hE] at he
    exact hidx.1 e he
  · intro p hp hty
    obtain ⟨⟨a0, hget, hout⟩, hmem⟩ := hidx.2 p hp hty
    refine ⟨?_, hmem⟩
    show ∃ a', lookup? (updateAssoc s.atoms id0 (mergeTv tv)) p.2 = some a' ∧
      a'.outgoing = p.1.2
    by_cases hid : p.2 = id0
    · refine ⟨mergeTv tv a0, ?_, ?_⟩
      · rw [hid] at hget ⊢
        rw [lookup?_updateAssoc_self, hget]
        rfl
      · rw [mergeTv_outgoing]
        exact hout
    · exact ⟨a0, by rw [lookup?_updateAssoc_ne s.atoms (mergeTv tv) hid]; exact hget, hout⟩

theorem inhIndexOk_add_link_new {s : AtomSpace} {a c : AtomId} (tv : TruthValue)
    (hwf : wf s) (hidx : InhIndexOk s)
    (h0 : lookup? s.linkIndex (AtomType.InheritanceLink, [a, c]) = none) :
    InhIndexOk (add_link s .InheritanceLink [a, c] tv).1 := by
  have hedges := inhEdges_add_link_new tv hwf h0
  have hLI : (add_link s .InheritanceLink [a, c] tv).1.linkIndex =
      s.linkIndex ++ [((AtomType.InheritanceLink, [a, c]), s.nextId)] := by
    rw [add_link_new tv h0]
  have hAt : (add_link s .InheritanceLink [a, c] tv).1.atoms =
      s.atoms ++ [(s.nextId, Atom.new_link s.nextId .InheritanceLink [a, c] tv)] := by
    rw [add_link_new tv h0]
  have hTI : (add_link s .InheritanceLink [a, c] tv).1.typeIndex =
      pushEntry s.typeIndex .InheritanceLink s.nextId := by
    rw [add_link_new tv h0]
  refine ⟨?_, ?_⟩
  · intro e he
    rw [hedges] at he
    show (lookup? (add_link s .InheritanceLink [a, c] tv).1.linkIndex
      (AtomType.InheritanceLink, [e.1, e.2])).isSome = true
    rw [hLI]
    rcases List.mem_append.mp he with he | he
    · exact lookup?_append_isSome _ (hidx.1 e he)
    · simp only [List.mem_singleton] at he
      subst he
      rw [lookup?_append_right _ h0, lookup?_singleton]
      rfl
  · intro p hp hty
    rw [hLI] at hp
    rcases List.mem_append.mp hp with hp | hp
    · obtain ⟨⟨a0, hget, hout⟩, hmem⟩ := hidx.2 p hp hty
      refine ⟨⟨a0, ?_, hout⟩, ?_⟩
      · rw [hAt]
        exact lookup?_append_left _ hget
      · show p.2 ∈ (lookup? (add_link s .InheritanceLink [a, c] tv).1.typeIndex
          AtomType.InheritanceLink).getD []
        rw [hTI]
        exact pushEntry_mem_persist hmem
    · simp only [List.mem_singleton] at hp
      subst hp
      refine ⟨⟨Atom.new_link s.nextId .InheritanceLink [a, c] tv, ?_, rfl⟩, ?_⟩
      · rw [hAt]
        rw [lookup?_append_right _ (lookup?_atoms_nextId hwf)]
        exact lookup?_singleton _ _
      · show s.nextId ∈ (lookup? (add_link s .InheritanceLink [a, c] tv).1.typeIndex
          AtomType.InheritanceLink).getD []
        rw [hTI, lookup?_pushEntry_self]
        simp

theorem add_link_inhIndexOk {s : AtomSpace} {a c : AtomId} (tv : TruthValue)
    (hwf : wf s) (hidx : InhIndexOk s) :
    InhIndexOk (add_link s .InheritanceLink [a, c] tv).1 := by
  cases h0 : lookup? s.linkIndex (.InheritanceLink, [a, c]) with
  | some id0 =>
    rw [add_link_found tv h0]
    exact inhIndexOk_update_mergeTv hidx id0 tv
  | none => exact inhIndexOk_add_link_new tv hwf hidx h0

theorem dedMat_inv {s : AtomSpace} (cands : List DedCand) (hwf : wf s)
    (hidx : InhIndexOk s) :
    wf (dedMaterialize s cands).1 ∧ InhIndexOk (dedMaterialize s cands).1 := by
  refine foldl_preserve
    (fun acc : AtomSpace × List Inference => wf acc.1 ∧ InhIndexOk acc.1)
    dedMatStep cands ?_ cands (fun y hy => hy) (s, []) ⟨hwf, hidx⟩
  intro acc cand _ hP
  constructor
  · rw [dedMatStep_fst]
    exact add_link_wf hP.1 _ _ _
  · rw [dedMatStep_fst]
    exact add_link_inhIndexOk _ hP.1 hP.2

theorem deduction_step_inv {s : AtomSpace} (hwf : wf s) (hidx : InhIndexOk s) :
    wf (deduction_step s).1 ∧ InhIndexOk (deduction_step s).1 :=
  dedMat_inv _ hwf hidx

theorem dedMat_edge_mono {s : AtomSpace} {e : AtomId × AtomId}
    (cands : List DedCand) (hwf : wf s) (he : e ∈ inhEdges s) :
    e ∈ inhEdges (dedMaterialize s cands).1 := by
  suffices h : wf (dedMaterialize s cands).1 ∧ e ∈ inhEdges (dedMaterialize s cands).1
    from h.2
  refine foldl_preserve
    (fun acc : AtomSpace × List Inference => wf acc.1 ∧ e ∈ inhEdges acc.1)
    dedMatStep cands ?_ cands (fun y hy => hy) (s, []) ⟨hwf, he⟩
  intro acc cand _ hP
  constructor
  · rw [dedMatStep_fst]
    exact add_link_wf hP.1 _ _ _
  · rw [dedMatStep_fst]
    cases h0 : lookup? acc.1.linkIndex (.InheritanceLink, [cand.1, cand.2.1]) with
    | some id =>
      rw [inhEdges_add_link_found _ h0]
      exact hP.2
    | none =>
      rw [inhEdges_add_link_new _ hP.1 h0]
      exact List.mem_append_left _ hP.2

theorem ded_edge_mono {s : AtomSpace} {e : AtomId × AtomId} (hwf : wf s)
    (he : e ∈ inhEdges s) : e ∈ inhEdges (deduction_step s).1 :=
  dedMat_edge_mono _ hwf he

theorem dedCandStep_sel_mono {s : AtomSpace} {a c : AtomId} (pab pbc : InhTriple)
    {cands : List DedCand} (h : ∃ x ∈ cands, x.1 = a ∧ x.2.1 = c) :
    ∃ x ∈ dedCandStep s pab cands pbc, x.1 = a ∧ x.2.1 = c := by
  obtain ⟨x, hx, hx1, hx2⟩ := h
  rcases pab with ⟨a1, b1, i1, t1⟩
  rcases pbc with ⟨b2, c2, i2, t2⟩
  rw [dedCandStep_eq]
  by_cases h1 : b1 ≠ b2 ∨ a1 = c2
  · rw [if_pos h1]
    exact ⟨x, hx, hx1, hx2⟩
  · rw [if_neg h1]
    by_cases h2 : (find_link s .InheritanceLink [a1, c2]).isSome = true
    · rw [if_pos h2]
      exact ⟨x, hx, hx1, hx2⟩
    · rw [if_neg h2]
      by_cases h3 : cands.any (fun y => y.1 == a1 && y.2.1 == c2) = true
      · rw [if_pos h3]
        exact ⟨x, hx, hx1, hx2⟩
      · rw [if_neg h3]
        exact ⟨x, List.mem_append_left _ hx, hx1, hx2⟩

theorem dedCandStep_sel_hit {s : AtomSpace} {a c : AtomId} (pab pbc : InhTriple)
    (cands : List DedCand) (h1 : pab.1 = a) (hm : pab.2.1 = pbc.1)
    (hc2 : pbc.2.1 = c) (hac : a ≠ c)
    (hfl : ¬(find_link s .InheritanceLink [a, c]).isSome = true) :
    ∃ x ∈ dedCandStep s pab cands pbc, x.1 = a ∧ x.2.1 = c := by
  rcases pab with ⟨a1, b1, i1, t1⟩
  rcases pbc with ⟨b2, c2, i2, t2⟩
  subst h1
  subst hc2
  subst hm
  rw [dedCandStep_eq]
  rw [if_neg (fun h => h.elim (fun hb => hb rfl) hac)]
  rw [if_neg hfl]
  by_cases h3 : cands.any (fun y => y.1 == a1 && y.2.1 == c2) = true
  · rw [if_pos h3]
    obtain ⟨x, hx, hb⟩ := List.any_eq_true.mp h3
    rw [Bool.and_eq_true] at hb
    exact ⟨x, hx, eq_of_beq hb.1, eq_of_beq hb.2⟩
  · rw [if_neg h3]
    exact ⟨(a1, c2, deduction_tv t1 t2, i1, i2),
      List.mem_append_right _ (List.mem_singleton.mpr rfl), rfl, rfl⟩

theorem dedCandOuter_sel_hit {s : AtomSpace} {a c : AtomId}
    {links : List InhTriple} (pab : InhTriple) (cands : List DedCand)
    {pbc : InhTriple} (hmem : pbc ∈ links) (h1 : pab.1 = a) (hm : pab.2.1 = pbc.1)
    (hc2 : pbc.2.1 = c) (hac : a ≠ c)
    (hfl : ¬(find_link s .InheritanceLink [a, c]).isSome = true) :
    ∃ x ∈ dedCandOuter s links cands pab, x.1 = a ∧ x.2.1 = c := by
  obtain ⟨l1, l2, rfl⟩ := List.append_of_mem hmem
  unfold dedCandOuter
  rw [List.foldl_append, List.foldl_cons]
  refine foldl_preserve (fun cs => ∃ x ∈ cs, x.1 = a ∧ x.2.1 = c)
    (dedCandStep s pab) l2 (fun acc y _ hP => dedCandStep_sel_mono pab y hP) l2
    (fun y hy => hy) _ ?_
  exact dedCandStep_sel_hit pab pbc _ h1 hm hc2 hac hfl

theorem dedCandidates_sel_hit {s : AtomSpace} {a c : AtomId}
    {pab pbc : InhTriple} (hab : pab ∈ inhTriples s) (hbc : pbc ∈ inhTriples s)
    (h1 : pab.1 = a) (hm : pab.2.1 = pbc.1) (hc2 : pbc.2.1 = c) (hac : a ≠ c)
    (hfl : ¬(find_link s .InheritanceLink [a, c]).isSome = true) :
    ∃ x ∈ dedCandidates s (inhTriples s), x.1 = a ∧ x.2.1 = c := by
  obtain ⟨l1, l2, hsplit⟩ := List.append_of_mem hab
  rw [hsplit] at hbc
  unfold dedCandidates
  rw [hsplit, List.foldl_append, List.foldl_cons]
  refine foldl_preserve (fun cs => ∃ x ∈ cs, x.1 = a ∧ x.2.1 = c)
    (dedCandOuter s (l1 ++ pab :: l2)) l2 ?_ l2 (fun y hy => hy) _ ?_
  · intro acc y _ hP
    exact foldl_preserve (fun cs => ∃ x ∈ cs, x.1 = a ∧ x.2.1 = c)
      (dedCandStep s y) (l1 ++ pab :: l2)
      (fun acc2 z _ hP2 => dedCandStep_sel_mono y z hP2)
      (l1 ++ pab :: l2) (fun z hz => hz) acc hP
  · exact dedCandOuter_sel_hit pab _ hbc h1 hm hc2 hac hfl

theorem foldl_dedMat_edge_of_cand {a c : AtomId} :
    ∀ (cands : List DedCand) (acc : AtomSpace × List Inference) (x : DedCand),
    x ∈ cands → x.1 = a → x.2.1 = c → wf acc.1 → InhIndexOk acc.1 →
    (a, c) ∈ inhEdges (List.foldl dedMatStep acc cands).1 := by
  intro cands
  induction cands with
  | nil =>
    intro acc x hx
    exact absurd hx (List.not_mem_nil x)
  | cons y rest ih =>
    intro acc x hx h1 h2 hw hidx
    rw [List.foldl_cons]
    have hw' : wf (dedMatStep acc y).1 := by
      rw [dedMatStep_fst]
      exact add_link_wf hw _ _ _
    have hidx' : InhIndexOk (dedMatStep acc y).1 := by
      rw [dedMatStep_fst]
      exact add_link_inhIndexOk _ hw hidx
    rcases List.mem_cons.mp hx with hx | hx
    · subst hx
      have hedge : (a, c) ∈ inhEdges (dedMatStep acc x).1 := by
        rw [dedMatStep_fst, h1, h2]
        cases h0 : lookup? acc.1.linkIndex (.InheritanceLink, [a, c]) with
        | some id =>
          rw [inhEdges_add_link_found _ h0]
          exact inhIndexOk_edge_of_lookup hidx h0
        | none =>
          rw [inhEdges_add_link_new _ hw h0]
          exact List.mem_append_right _ (List.mem_singleton.mpr rfl)
      refine (foldl_preserve
        (fun ac : AtomSpace × List Inference => wf ac.1 ∧ (a, c) ∈ inhEdges ac.1)
        dedMatStep rest ?_ rest (fun z hz => hz) _ ⟨hw', hedge⟩).2
      intro ac z _ hP
      refine ⟨?_, ?_⟩
      · rw [dedMatStep_fst]
        exact add_link_wf hP.1 _ _ _
      · rw [dedMatStep_fst]
        cases h0 : lookup? ac.1.linkIndex (.InheritanceLink, [z.1, z.2.1]) with
        | some id =>
          rw [inhEdges_add_link_found _ h0]
          exact hP.2
        | none =>
          rw [inhEdges_add_link_new _ hP.1 h0]
          exact List.mem_append_left _ hP.2
    · exact ih (dedMatStep acc y) x hx h1 h2 hw' hidx'

theorem dedMat_edge_of_cand {s : AtomSpace} {a c : AtomId} {x : DedCand}
    {cands : List DedCand} (hx : x ∈ cands) (h1 : x.1 = a) (h2 : x.2.1 = c)
    (hwf : wf s) (hidx : InhIndexOk s) :
    (a, c) ∈ inhEdges (dedMaterialize s cands).1 :=
  foldl_dedMat_edge_of_cand cands (s, []) x hx h1 h2 hwf hidx

/-- Round completeness: one `deduction_step` materializes the
composition of every composable pair of current inheritance edges with
distinct endpoints. -/
theorem deduction_step_complete {s : AtomSpace} {a b c : AtomId}
    (hwf : wf s) (hidx : InhIndexOk s) (hab : (a, b) ∈ inhEdges s)
    (hbc : (b, c) ∈ inhEdges s) (hac : a ≠ c) :
    (a, c) ∈ inhEdges (deduction_step s).1 := by
  by_cases hfl : (find_link s .InheritanceLink [a, c]).isSome = true
  · obtain ⟨id, hid⟩ := Option.isSome_iff_exists.mp hfl
    exact ded_edge_mono hwf (inhIndexOk_edge_of_lookup hidx hid)
  · obtain ⟨t1, ht1, h11, h12⟩ := triple_of_mem_inhEdges hab
    obtain ⟨t2, ht2, h21, h22⟩ := triple_of_mem_inhEdges hbc
    have hm : t1.2.1 = t2.1 := by rw [h12, h21]
    obtain ⟨x, hx, hx1, hx2⟩ := dedCandidates_sel_hit ht1 ht2 h11 hm h22 hac hfl
    exact dedMat_edge_of_cand hx hx1 hx2 hwf hidx

/-- A store whose composable edge pairs are all already findable yields
an empty round and is left untouched. -/
theorem deduction_step_closed {s : AtomSpace}
    (hcl : ∀ a b c : AtomId, (a, b) ∈ inhEdges s → (b, c) ∈ inhEdges s → a ≠ c →
      (find_link s .InheritanceLink [a, c]).isSome = true) :
    deduction_step s = (s, []) := by
  have hstep : ∀ pab : InhTriple, pab ∈ inhTriples s → ∀ (cands : List DedCand)
      (pbc : InhTriple), pbc ∈ inhTriples s → dedCandStep s pab cands pbc = cands := by
    intro pab hpab cands pbc hpbc
    rcases pab with ⟨a1, b1, i1, t1⟩
    rcases pbc with ⟨b2, c2, i2, t2⟩
    rw [dedCandStep_eq]
    by_cases h1 : b1 ≠ b2 ∨ a1 = c2
    · rw [if_pos h1]
    · rw [if_neg h1]
      push_neg at h1
      have he1 : (a1, b1) ∈ inhEdges s := mem_inhEdges_of_triple hpab
      have he2 : (b1, c2) ∈ inhEdges s := by
        rw [h1.1]
        exact mem_inhEdges_of_triple hpbc
      rw [if_pos (hcl a1 b1 c2 he1 he2 h1.2)]
  have hcands : ∀ l : List InhTriple, (∀ p ∈ l, p ∈ inhTriples s) →
      ∀ (cands : List DedCand) (pab : InhTriple), pab ∈ inhTriples s →
      List.foldl (dedCandStep s pab) cands l = cands := by
    intro l
    induction l with
    | nil => intro _ cands pab _; rfl
    | cons q rest ih =>
      intro hsub cands pab hpab
      rw [List.foldl_cons, hstep pab hpab cands q (hsub q (List.mem_cons_self q rest))]
      exact ih (fun p hp => hsub p (List.mem_cons_of_mem q hp)) cands pab hpab
  have houter : ∀ l : List InhTriple, (∀ p ∈ l, p ∈ inhTriples s) →
      ∀ cands : List DedCand,
      List.foldl (dedCandOuter s (inhTriples s)) cands l = cands := by
    intro l
    induction l with
    | nil => intro _ cands; rfl
    | cons q rest ih =>
      intro hsub cands
      rw [List.foldl_cons]
      have hq : dedCandOuter s (inhTriples s) cands q = cands :=
        hcands (inhTriples s) (fun p hp => hp) cands q
          (hsub q (List.mem_cons_self q rest))
      rw [hq]
      exact ih (fun p hp => hsub p (List.mem_cons_of_mem q hp)) cands
  have hc : dedCandidates s (inhTriples s) = [] := by
    unfold dedCandidates
    exact houter (inhTriples s) (fun p hp => hp) []
  show dedMaterialize s (dedCandidates s (inhTriples s)) = (s, [])
  rw [hc]
  rfl

theorem coveredUpTo_one (s : AtomSpace) : CoveredUpTo (inhEdges s) s 1 := by
  intro a b _ hex
  obtain ⟨n, h1, h2, hp⟩ := hex
  exact chainPath_one hp (le_antisymm h2 h1)

/-- One productive round doubles the covered chain length: every pair of
distinct atoms joined by a chain of at most `2c` seed edges is an edge
after the round, provided pairs joined within `c` already were. -/
theorem coveredUpTo_double {E : List (AtomId × AtomId)} {s : AtomSpace} {c : ℕ}
    (hwf : wf s) (hidx : InhIndexOk s) (hcov : CoveredUpTo E s c) (hc : 1 ≤ c) :
    CoveredUpTo E (deduction_step s).1 (2 * c) := by
  intro a b hne hex
  obtain ⟨n, hn1, hn2, hp⟩ := hex
  have hSne : {m | chainPath E a b m}.Nonempty := ⟨n, hp⟩
  have hmp : chainPath E a b (sInf {m | chainPath E a b m}) := Nat.sInf_mem hSne
  have hmle : sInf {m | chainPath E a b m} ≤ n :=
    Nat.sInf_le (show n ∈ {m | chainPath E a b m} from hp)
  by_cases hmc : sInf {m | chainPath E a b m} ≤ c
  · exact ded_edge_mono hwf (hcov a b hne ⟨_, chainPath_pos hmp, hmc, hmp⟩)
  · push_neg at hmc
    have hm2c : sInf {m | chainPath E a b m} ≤ 2 * c := le_trans hmle hn2
    obtain ⟨u, p1, p2⟩ := chainPath_split hmp (sInf {m | chainPath E a b m} - c) c
      (by omega) hc (by omega)
    have hau : a ≠ u := by
      intro h
      rw [← h] at p2
      have := Nat.sInf_le (show c ∈ {m | chainPath E a b m} from p2)
      omega
    have hub : u ≠ b := by
      intro h
      rw [h] at p1
      have := Nat.sInf_le
        (show (sInf {m | chainPath E a b m} - c) ∈ {m | chainPath E a b m} from p1)
      omega
    have h1 : (a, u) ∈ inhEdges s := hcov a u hau ⟨_, by omega, by omega, p1⟩
    have h2 : (u, b) ∈ inhEdges s := hcov u b hub ⟨c, hc, le_refl c, p2⟩
    exact deduction_step_complete hwf hidx h1 h2 hne

/-- Once the cover reaches the longest chain length, the next round
yields nothing and leaves the store untouched. -/
theorem deduction_step_fix_of_cover {E : List (AtomId × AtomId)} {s : AtomSpace}
    {c D : ℕ} (hidx : InhIndexOk s) (hEB : EdgesBounded E s D)
    (hD : ∀ a b n, chainPath E a b n → n ≤ D) (hcov : CoveredUpTo E s c)
    (hDc : D ≤ c) : deduction_step s = (s, []) := by
  apply deduction_step_closed
  intro a b c' hab hbc hac
  obtain ⟨n1, hn11, _, p1⟩ := hEB (a, b) hab
  obtain ⟨n2, hn21, _, p2⟩ := hEB (b, c') hbc
  have pc := chainPath.comp p1 p2
  have hle := hD _ _ _ pc
  exact hidx.1 (a, c') (hcov a c' hac ⟨n1 + n2, by omega, by omega, pc⟩)

theorem reachesFixpoint_aux {E : List (AtomId × AtomId)} {D : ℕ}
    (hD : ∀ a b n, chainPath E a b n → n ≤ D) :
    ∀ (fuel : ℕ) (s : AtomSpace) (c : ℕ), wf s → InhIndexOk s →
      EdgesBounded E s D → CoveredUpTo E s c → 1 ≤ c → D ≤ c * 2 ^ fuel →
      reachesFixpoint s (fuel + 1) = true := by
  intro fuel
  induction fuel with
  | zero =>
    intro s c hwf hidx hEB hcov hc hDc
    rw [pow_zero, mul_one] at hDc
    have hfix := deduction_step_fix_of_cover hidx hEB hD hcov hDc
    rw [reachesFixpoint_succ, hfix]
    rfl
  | succ f ih =>
    intro s c hwf hidx hEB hcov hc hDc
    rw [reachesFixpoint_succ]
    by_cases hz : (deduction_step s).2.isEmpty = true
    · rw [if_pos hz]
    · rw [if_neg hz]
      have hinv := deduction_step_inv hwf hidx
      have hEB2 : EdgesBounded E (deduction_step s).1 D := by
        intro e he
        obtain ⟨n, h1n, _, hpn⟩ := (deduction_step_bounded hwf hEB).2 e he
        exact ⟨n, h1n, hD _ _ _ hpn, hpn⟩
      have hcov2 := coveredUpTo_double hwf hidx hcov hc
      have heq : c * 2 ^ (f + 1) = 2 * c * 2 ^ f := by
        rw [pow_succ]
        ring
      have hDc2 : D ≤ 2 * c * 2 ^ f := by
        rw [← heq]
        exact hDc
      exact ih (deduction_step s).1 (2 * c) hinv.1 hinv.2 hEB2 hcov2 (by omega) hDc2

theorem le_two_pow_pred (D : ℕ) (hD : 1 ≤ D) : D ≤ 2 ^ (D - 1) := by
  induction D with
  | zero => omega
  | succ n ih =>
    cases Nat.eq_zero_or_pos n with
    | inl h0 =>
      subst h0
      norm_num
    | inr hpos =>
      have h1 := ih hpos
      have h2 : 1 ≤ 2 ^ (n - 1) := Nat.one_le_pow _ 2 (by norm_num)
      have h3 : 2 ^ (n - 1) + 2 ^ (n - 1) = 2 ^ n := by
        have hn : n = n - 1 + 1 := by omega
        calc 2 ^ (n - 1) + 2 ^ (n - 1) = 2 ^ (n - 1) * 2 := by ring
          _ = 2 ^ (n - 1 + 1) := (pow_succ 2 (n - 1)).symm
          _ = 2 ^ n := by rw [← hn]
      have hs : n + 1 - 1 = n := by omega
      rw [hs]
      omega

/-- Past a round budget that already hits fixpoint, extra fuel changes
nothing: the loop breaks at its zero-yield round. -/
theorem forward_chain_stable : ∀ (d : ℕ) (s : AtomSpace),
    reachesFixpoint s d = true → ∀ e, d ≤ e → forward_chain s e = forward_chain s d := by
  intro d
  induction d with
  | zero =>
    intro s h
    exact absurd h (by simp [reachesFixpoint])
  | succ n ih =>
    intro s h e hle
    rw [reachesFixpoint_succ] at h
    obtain ⟨e', rfl⟩ : ∃ e', e = e' + 1 := ⟨e - 1, by omega⟩
    rw [forward_chain_succ, forward_chain_succ]
    by_cases hz : (deduction_step s).2.isEmpty = true
    · rw [if_pos hz, if_pos hz]
    · rw [if_neg hz, if_neg hz]
      rw [if_neg hz] at h
      rw [ih (deduction_step s).1 h e' (by omega)]

/-- Claim C1 counterexample: over the 4-edge chain a→b→c→d→e (ids 1-5),
`forward_chain` with `max_rounds = 2` derives the inheritance link
(1, 5), whose only connection over the seed edges is a path of 4 edges —
more than the claimed `max_rounds + 1 = 3` — because round 2 composes two
links that were both derived in round 1. -/
theorem forward_chain_exceeds_claimed_bound :
    (1, 5) ∈ inhEdges (forward_chain chain5 2).1 ∧
    (1, 5) ∉ inhEdges chain5 ∧
    ¬chainPath (inhEdges chain5) 1 5 1 ∧
    ¬chainPath (inhEdges chain5) 1 5 2 ∧
    ¬chainPath (inhEdges chain5) 1 5 3 := by
  have hE : ∀ p ∈ inhEdges chain5, p.2 = p.1 + 1 := by decide
  refine ⟨by decide, by decide, ?_, ?_, ?_⟩
  · intro h
    exact absurd (chainPath_shift hE h) (by decide)
  · intro h
    exact absurd (chainPath_shift hE h) (by decide)
  · intro h
    exact absurd (chainPath_shift hE h) (by decide)

/-- Claim C1 (amended): for every well-formed store and every
`max_rounds`, each inheritance link present after
`forward_chain(store, max_rounds)` either already existed at call entry
or corresponds to a chain of `n` seed inheritance edges with
`2 ≤ n ≤ 2 ^ max_rounds` (each round can compose two links that were
both derived in earlier rounds, so a round doubles the reachable chain
length rather than extending it by one hop); and the round loop reaches
fixpoint within (longest acyclic chain length − 1) rounds regardless of
how large `max_rounds` is: whenever the store's link index is in sync
with its atoms and every chain of seed inheritance edges spans at most
`L` atoms (the acyclic setting in which "longest chain" is
well-defined — both conditions hold of every store the program builds),
a round yielding zero new links occurs within `L − 1` rounds, and every
round budget of at least `L − 1` returns the same store and the same
inference list. -/
theorem forward_chain_edges_are_paths (s : AtomSpace) (d : ℕ) (hwf : wf s) :
    (∀ a c : AtomId, (a, c) ∈ inhEdges (forward_chain s d).1 →
      (a, c) ∈ inhEdges s ∨
        ∃ n, 2 ≤ n ∧ n ≤ 2 ^ d ∧ chainPath (inhEdges s) a c n) ∧
    (∀ L : ℕ, 2 ≤ L → InhIndexOk s →
      (∀ a c n, chainPath (inhEdges s) a c n → n + 1 ≤ L) →
      reachesFixpoint s (L - 1) = true ∧
        ∀ e, L - 1 ≤ e → forward_chain s e = forward_chain s (L - 1)) := by
  constructor
  · have hb : EdgesBounded (inhEdges s) s 1 := by
      intro e he
      refine ⟨1, le_refl 1, le_refl 1, chainPath.single ?_⟩
      rw [Prod.mk.eta]
      exact he
    obtain ⟨_, hbd⟩ := forward_chain_bounded d s 1 hwf hb
    intro a c hmem
    obtain ⟨n, h1, h2, hp⟩ := hbd (a, c) hmem
    rw [one_mul] at h2
    by_cases hn1 : n = 1
    · exact Or.inl (chainPath_one hp hn1)
    · exact Or.inr ⟨n, by omega, h2, hp⟩
  · intro L hL hidx hbound
    have hD : ∀ a c n, chainPath (inhEdges s) a c n → n ≤ L - 1 := by
      intro a c n hp
      have := hbound a c n hp
      omega
    have hEB : EdgesBounded (inhEdges s) s (L - 1) := by
      intro e he
      refine ⟨1, le_refl 1, by omega, chainPath.single ?_⟩
      rw [Prod.mk.eta]
      exact he
    have hfx : reachesFixpoint s (L - 1 - 1 + 1) = true := by
      refine reachesFixpoint_aux hD (L - 1 - 1) s 1 hwf hidx hEB (coveredUpTo_one s)
        (le_refl 1) ?_
      rw [one_mul]
      exact le_two_pow_pred (L - 1) (by omega)
    have heq : L - 1 - 1 + 1 = L - 1 := by omega
    rw [heq] at hfx
    exact ⟨hfx, fun e he => forward_chain_stable (L - 1) s hfx e he⟩

theorem forward_chain_edges_are_paths_witness :
    wf chain3 ∧
    ((1, 3) ∈ inhEdges (forward_chain chain3 1).1 →
      (1, 3) ∈ inhEdges chain3 ∨
        ∃ n, 2 ≤ n ∧ n ≤ 2 ^ 1 ∧ chainPath (inhEdges chain3) 1 3 n) ∧
    (2 ≤ 3 ∧ InhIndexOk chain3) ∧
    reachesFixpoint chain3 (3 - 1) = true := by
  refine ⟨by decide, (forward_chain_edges_are_paths chain3 1 (by decide)).1 1 3,
    ⟨by decide, by decide⟩, ?_⟩
  refine ((forward_chain_edges_are_paths chain3 1 (by decide)).2 3 (by decide)
    (by decide) ?_).1
  intro a c n hp
  have hE : ∀ p ∈ inhEdges chain3, p.2 = p.1 + 1 := by decide
  have h1 := chainPath_shift hE hp
  obtain ⟨h2a, h2c⟩ := chainPath_src_tgt 1 3 (by decide) (by decide) hp
  rw [h1] at h2c
  have h3 : 1 + n ≤ 3 := le_trans (Nat.add_le_add_right h2a n) h2c
  rw [Nat.add_comm] at h3
  exact h3

end Coggy
